import Mathlib

/-!
Verification development for the rag-js retrieval subsystem.

Shallow embedding of the core code:
* `src/src/embeddings/local.js` (class `LocalEmbeddings`): tokenizer,
  32-bit string hash, TF-IDF vocabulary, hashed dense embedding,
  L2 normalization, cosine similarity, `findSimilar`.
* the `RAGEngine` class: vector cache, `buildVectorIndex`, retrieval with
  threshold/fallback, `refresh`, `getStats`, `updateConfig`.
* `src/src/datasources/pinecone.js` (class `FileDataSource`): `chunkText`.

Conventions of the embedding:
* JS strings are `List Char` (the sources only exercise ASCII).
* JS numbers are `ℝ` where the code computes with floats (scores, IDF
  weights, vector components), `ℤ` for 32-bit integer hashing and for the
  chunker's index arithmetic, `ℕ` for sizes and counts.
* A JS `Map` is an association list in insertion order: `set` of an existing
  key updates it in place, `set` of a new key appends, `size` is the list
  length.  This matches the iteration-order semantics of `Map` that the
  code relies on.
* Code that can throw (`cosineSimilarity`) returns `Except String`.
* JS `Array.prototype.sort` is required (ES2019) to be stable; it is
  modelled by `List.insertionSort`, which inserts each earlier element
  before later elements that compare equal, i.e. a stable sort.
-/

namespace RagJs

/-! ## JS `Map` as an association list -/

def jsGet [DecidableEq κ] (m : List (κ × α)) (k : κ) : Option α :=
  (m.find? (fun p => p.1 = k)).map (·.2)

def jsHas [DecidableEq κ] (m : List (κ × α)) (k : κ) : Bool :=
  (m.find? (fun p => p.1 = k)).isSome

def jsSet [DecidableEq κ] (m : List (κ × α)) (k : κ) (v : α) : List (κ × α) :=
  if jsHas m k then m.map (fun p => if p.1 = k then (k, v) else p) else m ++ [(k, v)]

def jsKeys (m : List (κ × α)) : List κ := m.map (·.1)

def jsValues (m : List (κ × α)) : List α := m.map (·.2)

/-- First-occurrence deduplication, the order in which a JS `Set` built from
a list iterates. -/
def jsDedup [DecidableEq κ] (l : List κ) : List κ :=
  l.foldl (fun acc t => if t ∈ acc then acc else acc ++ [t]) []

/-! ## 32-bit integer arithmetic and `hashString` -/

/-- JS `x | 0` / `x & x`: reduction to a signed 32-bit integer. -/
def toInt32 (n : ℤ) : ℤ := (n + 2 ^ 31) % 2 ^ 32 - 2 ^ 31

/-- One step of `hashString`: `hash = ((hash << 5) - hash) + char; hash = hash & hash`.
The shift operates on 32-bit integers, the rest is exact float arithmetic
followed by a 32-bit truncation. -/
def hashStep (h : ℤ) (c : Char) : ℤ :=
  toInt32 (toInt32 (h * 32) - h + c.toNat)

/-- `LocalEmbeddings.hashString` over the characters of the string. -/
def hashString (s : List Char) : ℤ := s.foldl hashStep 0

/-! ## `FileDataSource.chunkText` (src/src/datasources/pinecone.js) -/

structure ChunkCfg where
  chunkSize : ℤ
  chunkOverlap : ℤ

/-- Does pattern `p` occur in `t` starting at index `i`? -/
def occursAt (t p : List Char) (i : ℕ) : Bool := p.isPrefixOf (t.drop i)

/-- Downward scan used to model `String.prototype.lastIndexOf`. -/
def lastIndexOfAux (t p : List Char) : ℕ → ℤ
  | 0 => if occursAt t p 0 then 0 else -1
  | i + 1 => if occursAt t p (i + 1) then (i : ℤ) + 1 else lastIndexOfAux t p i

/-- JS `t.lastIndexOf(p, pos)`: the largest start index `≤ pos` (clamped
into `[0, t.length]`) at which `p` occurs, `-1` if none. -/
def lastIndexOf (t p : List Char) (pos : ℤ) : ℤ :=
  lastIndexOfAux t p (min pos (t.length : ℤ)).toNat

/-- The boundary markers, in the order the code tries them. -/
def breakPoints : List (List Char) :=
  [['\n', '\n'], ['\n'], ['.', ' '], ['!', ' '], ['?', ' ']]

/-- The `for (const bp of breakPoints)` loop: the first pattern whose
`lastIndexOf(bp, end)` is `> start + chunkSize / 2` yields
`(lastBreak, bp.length)`.  The float comparison `lastBreak > start + cs/2`
is rendered exactly as `2*lastBreak > 2*start + cs`. -/
def findBreak (t : List Char) (start cs e : ℤ) : List (List Char) → Option (ℤ × ℕ)
  | [] => none
  | bp :: bps =>
    let lastBreak := lastIndexOf t bp e
    if 2 * lastBreak > 2 * start + cs then some (lastBreak, bp.length)
    else findBreak t start cs e bps

/-- The adjusted window end for the window starting at `start`:
`end = start + chunkSize`, pulled back to just after a boundary marker when
`end < text.length` and a qualifying marker exists. -/
def selectEnd (cfg : ChunkCfg) (t : List Char) (start : ℤ) : ℤ :=
  let e := start + cfg.chunkSize
  if e < (t.length : ℤ) then
    match findBreak t start cfg.chunkSize e breakPoints with
    | some (lastBreak, w) => lastBreak + w
    | none => e
  else e

/-- The next window start produced by one loop iteration:
`start = end - chunkOverlap`. -/
def chunkStep (cfg : ChunkCfg) (t : List Char) (start : ℤ) : ℤ :=
  selectEnd cfg t start - cfg.chunkOverlap

/-- JS `text.slice(start, end)` with its clamping of out-of-range indices. -/
def jsSlice (t : List Char) (s e : ℤ) : List Char :=
  let len : ℤ := t.length
  let s1 := if s < 0 then max (len + s) 0 else min s len
  let e1 := if e < 0 then max (len + e) 0 else min e len
  (t.take e1.toNat).drop s1.toNat

def jsIsWs (c : Char) : Bool :=
  c = ' ' ∨ c = '\t' ∨ c = '\n' ∨ c = '\r' ∨ c = '\x0b' ∨ c = '\x0c'

/-- JS `String.prototype.trim`. -/
def jsTrim (t : List Char) : List Char :=
  ((t.dropWhile jsIsWs).reverse.dropWhile jsIsWs).reverse

/-- The `while (start < text.length)` loop of `chunkText`, with fuel.
`none` means the fuel ran out, i.e. the loop was still running. -/
def chunkLoop (cfg : ChunkCfg) (t : List Char) :
    ℕ → ℤ → List (List Char) → Option (List (List Char))
  | 0, _, _ => none
  | fuel + 1, start, acc =>
    if start < (t.length : ℤ) then
      let e := selectEnd cfg t start
      chunkLoop cfg t fuel (e - cfg.chunkOverlap) (acc ++ [jsTrim (jsSlice t start e)])
    else some acc

/-- `FileDataSource.chunkText`.  The loop is given `text.length + 1` units of
fuel, enough for any execution in which `start` strictly increases each
iteration; `none` therefore witnesses a diverging run. -/
def chunkText (cfg : ChunkCfg) (t : List Char) : Option (List (List Char)) :=
  if (t.length : ℤ) ≤ cfg.chunkSize then some [jsTrim t]
  else (chunkLoop cfg t (t.length + 1) 0 []).map (fun cs => cs.filter (fun c => c.length != 0))

/-! ### Declarative descriptions of the boundary search (for claim C6) -/

/-- The start positions `l ≤ start + chunkSize` at which pattern `bp` occurs
and which clear the mid-window bound (`l > start + chunkSize / 2`, rendered
exactly over `ℤ`). -/
def qualPositions (t : List Char) (start cs : ℤ) (bp : List Char) : List ℕ :=
  (List.range ((start + cs).toNat + 1)).filter
    (fun l => occursAt t bp l && decide (2 * (l : ℤ) > 2 * start + cs))

/-- The window end as the code determines it, stated declaratively: the
first marker pattern in `breakPoints` order that has a qualifying
occurrence wins, and the window ends just after the greatest qualifying
occurrence of that pattern; with no qualifying pattern the end stays
`start + chunkSize`. -/
def specPriorityEnd (cfg : ChunkCfg) (t : List Char) (start : ℤ) : ℤ :=
  match breakPoints.find? (fun bp => !(qualPositions t start cfg.chunkSize bp).isEmpty) with
  | some bp => Int.ofNat ((qualPositions t start cfg.chunkSize bp).foldr max 0) + bp.length
  | none => start + cfg.chunkSize

/-- The window end as claim C6 describes it: the nearest boundary marker of
any kind found searching backward from `end = start + chunkSize`, no
further back than `chunkSize / 2` before `end`; the window ends just after
that marker, and `end` is unchanged if no such marker exists. -/
def specNearestEnd (cfg : ChunkCfg) (t : List Char) (start : ℤ) : ℤ :=
  let e := start + cfg.chunkSize
  let cands := (List.range (e.toNat + 1)).filter
    (fun l => breakPoints.any (fun bp => occursAt t bp l) &&
      decide (2 * (e - (l : ℤ)) ≤ cfg.chunkSize))
  match cands.max? with
  | some l =>
    (l : ℤ) + (if occursAt t ['\n', '\n'] l then 2 else if occursAt t ['\n'] l then 1 else 2)
  | none => e

/-! ## `LocalEmbeddings` (src/src/embeddings/local.js) -/

/-- JS regex `\w`: ASCII letters, digits and underscore. -/
def jsIsWordChar (c : Char) : Bool := c.isAlpha || c.isDigit || c = '_'

/-- Splitting a character list at every whitespace character.  JS splits on
whitespace RUNS (`/\s+/`); the only difference is extra empty groups, and
`tokenize` filters everything of length ≤ 1 away, so the token lists agree. -/
def splitOnWs : List Char → List (List Char)
  | [] => [[]]
  | c :: cs =>
    if jsIsWs c then [] :: splitOnWs cs
    else
      match splitOnWs cs with
      | [] => [[c]]
      | g :: gs => (c :: g) :: gs

/-- `LocalEmbeddings.tokenize`: lowercase, replace every character that is
neither a word character nor whitespace by a space, split on whitespace and
keep only tokens of length > 1. -/
def tokenize (text : List Char) : List (List Char) :=
  (splitOnWs ((text.map Char.toLower).map
      (fun c => if jsIsWordChar c || jsIsWs c then c else ' '))).filter
    (fun w => 1 < w.length)

/-- `vector.reduce((sum, val) => sum + val * val, 0)`. -/
def sumSq (v : List ℝ) : ℝ := v.foldl (fun s x => s + x * x) 0

noncomputable def l2norm (v : List ℝ) : ℝ := Real.sqrt (sumSq v)

/-- `LocalEmbeddings.normalize`: divide by the L2 norm, except that the
zero vector is returned unmodified. -/
noncomputable def normalize (v : List ℝ) : List ℝ :=
  if l2norm v = 0 then v else v.map (fun x => x / l2norm v)

/-- `vector[index] += x` on a fixed-length array. -/
def addAt (v : List ℝ) (i : ℕ) (x : ℝ) : List ℝ := v.set i (v.getD i 0 + x)

/-- JS `o || d` for a possibly-missing number: a missing OR zero stored
value falls back to the default. -/
noncomputable def jsOrReal (o : Option ℝ) (d : ℝ) : ℝ :=
  match o with
  | none => d
  | some v => if v = 0 then d else v

/-- The mutable state of a `LocalEmbeddings` instance. -/
structure LocalEmb where
  dimension : ℕ
  vocabulary : List (List Char × ℕ)
  idf : List (List Char × ℝ)
  documentCount : ℕ
  initDone : Bool

/-- `m.set(k, (m.get(k) || 0) + 1)`. -/
def bump [DecidableEq κ] (m : List (κ × ℕ)) (k : κ) : List (κ × ℕ) :=
  jsSet m k ((jsGet m k).getD 0 + 1)

/-- The term-frequency map of `LocalEmbeddings.embed`, in insertion order. -/
def tfOf (text : List Char) : List (List Char × ℕ) := (tokenize text).foldl bump []

/-- `Math.max(...tf.values(), 1)`. -/
def maxTf (tf : List (List Char × ℕ)) : ℕ := (tf.map (·.2)).foldl max 1

/-- The dense accumulation loop of `LocalEmbeddings.embed` (the loop over
the tf map that hashes each term into a bucket).  The unused intermediate
`sparse` map of the source is omitted: it does not flow into the result. -/
noncomputable def accumVector (st : LocalEmb) (text : List Char) : List ℝ :=
  (tfOf text).foldl
    (fun v p =>
      let h := hashString p.1
      let index := h.natAbs % st.dimension
      let sign : ℝ := if 0 ≤ h then 1 else -1
      let idfValue := jsOrReal (jsGet st.idf p.1) 1
      addAt v index (sign * ((p.2 : ℝ) / (maxTf (tfOf text) : ℝ)) * idfValue))
    (List.replicate st.dimension 0)

/-- `LocalEmbeddings.embed`. -/
noncomputable def embed (st : LocalEmb) (text : List Char) : List ℝ :=
  normalize (accumVector st text)

/-- One document's contribution to the docFreq/vocabulary pass of
`buildVocabulary`: every distinct token bumps the document frequency, and
tokens not yet in the vocabulary are appended with slot `vocabulary.size`. -/
def docFreqVocabStep (acc : List (List Char × ℕ) × List (List Char × ℕ))
    (doc : List Char) : List (List Char × ℕ) × List (List Char × ℕ) :=
  (jsDedup (tokenize doc)).foldl
    (fun acc2 token =>
      (bump acc2.1 token,
        if jsHas acc2.2 token then acc2.2 else jsSet acc2.2 token acc2.2.length))
    acc

/-- `LocalEmbeddings.buildVocabulary`.  Note: neither `this.vocabulary` nor
`this.idf` is cleared; the docFreq map is local and fresh. -/
noncomputable def buildVocabulary (st : LocalEmb) (docs : List (List Char)) : LocalEmb :=
  let n := docs.length
  let p := docs.foldl docFreqVocabStep ([], st.vocabulary)
  { st with
    documentCount := n
    vocabulary := p.2
    idf := p.1.foldl
      (fun idf q => jsSet idf q.1 (Real.log ((n + 1 : ℝ) / ((q.2 : ℝ) + 1)) + 1))
      st.idf }

/-- `LocalEmbeddings.initialize`: build the vocabulary when documents were
given, and mark the instance initialized. -/
noncomputable def embInit (st : LocalEmb) (docs : List (List Char)) : LocalEmb :=
  let st1 := if 0 < docs.length then buildVocabulary st docs else st
  { st1 with initDone := true }

/-! ### Spec-side descriptions for claims C3 and C4 -/

/-- Modelled from the claim: the dense accumulation as claim C3 reads it,
with `ln(N+2)` as the IDF of a term that has no IDF entry. -/
noncomputable def specAccumLnFallback (st : LocalEmb) (text : List Char) : List ℝ :=
  (tfOf text).foldl
    (fun v p =>
      let h := hashString p.1
      let index := h.natAbs % st.dimension
      let sign : ℝ := if 0 ≤ h then 1 else -1
      let idfValue := (jsGet st.idf p.1).getD (Real.log ((st.documentCount : ℝ) + 2))
      addAt v index (sign * ((p.2 : ℝ) / (maxTf (tfOf text) : ℝ)) * idfValue))
    (List.replicate st.dimension 0)

/-- The IDF factor the dense accumulation actually applies to a token: the
stored weight when present and nonzero, and the fallback 1 otherwise. -/
noncomputable def idfFactor (st : LocalEmb) (t : List Char) : ℝ :=
  match jsGet st.idf t with
  | none => 1
  | some v => if v = 0 then 1 else v

/-- The hash bucket a token lands in. -/
def bucketOf (st : LocalEmb) (t : List Char) : ℕ := (hashString t).natAbs % st.dimension

/-- The sign a token contributes with. -/
noncomputable def signOf (t : List Char) : ℝ := if 0 ≤ hashString t then 1 else -1

/-- Declarative per-bucket description of the accumulated vector: bucket `b`
is the sum of the contributions of exactly the distinct tokens hashing to
`b`, each weighted `sign * (tf / maxTf) * idfFactor`. -/
noncomputable def bucketContribution (st : LocalEmb) (text : List Char) (b : ℕ) : ℝ :=
  (((tfOf text).filter (fun p => decide (bucketOf st p.1 = b))).map
    (fun p => signOf p.1 * ((p.2 : ℝ) / (maxTf (tfOf text) : ℝ)) * idfFactor st p.1)).sum

/-- The number of occurrences of `t` in `l`. -/
def occCount [DecidableEq κ] (l : List κ) (t : κ) : ℕ :=
  (l.filter (fun x => decide (x = t))).length

/-- Does some document of the corpus contain token `t`? -/
def corpusHasToken (docs : List (List Char)) (t : List Char) : Bool :=
  docs.any (fun d => decide (t ∈ tokenize d))

/-- The number of corpus documents containing token `t`. -/
def dfCount (docs : List (List Char)) (t : List Char) : ℕ :=
  (docs.filter (fun d => decide (t ∈ tokenize d))).length

/-! ## The `RAGEngine` (vector cache, retrieval, refresh) -/

/-- A cached vector entry: `{...doc, vector}`. -/
structure VEntry where
  id : String
  content : List Char
  vector : List ℝ

/-- A document as handed over by the data source. -/
structure Doc where
  id : String
  content : List Char

/-- A retrieval result `{id, content, metadata, score}`.  Metadata is an
opaque payload that no claim touches; it is omitted from the embedding. -/
structure RResult where
  id : String
  content : List Char
  score : ℝ

/-- The state of a `RAGEngine` with a vectorizer configured (all claims
presuppose one; the data source and LLM are external collaborators and are
passed where needed as plain values). -/
structure Engine where
  emb : LocalEmb
  topK : ℕ
  similarityThreshold : ℝ
  documentVectors : List (String × VEntry)
  initDone : Bool

noncomputable def mkEntry (emb : LocalEmb) (d : Doc) : VEntry :=
  ⟨d.id, d.content, embed emb d.content⟩

/-- `RAGEngine.buildVectorIndex`: (re-)embed every current source document
into the cache.  It only overwrites or appends; it never removes. -/
noncomputable def buildVectorIndex (st : Engine) (srcDocs : List Doc) : Engine :=
  { st with
    documentVectors :=
      srcDocs.foldl (fun m d => jsSet m d.id (mkEntry st.emb d)) st.documentVectors }

/-- `RAGEngine.initialize` with the source's current documents (the
required-collaborator checks concern the absent-vectorizer case and are
outside this embedding). -/
noncomputable def initEngine (st : Engine) (srcDocs : List Doc) : Engine :=
  let st1 := { st with emb := embInit st.emb (srcDocs.map (·.content)) }
  let st2 := buildVectorIndex st1 srcDocs
  { st2 with initDone := true }

/-- `RAGEngine.refresh` with the source's post-reload documents: rebuild
the vocabulary over the new texts, then `buildVectorIndex`. -/
noncomputable def refreshEngine (st : Engine) (srcDocs : List Doc) : Engine :=
  let st1 := { st with emb := buildVocabulary st.emb (srcDocs.map (·.content)) }
  buildVectorIndex st1 srcDocs

/-- `RAGEngine.addDocument` after the source assigned id `id`. -/
noncomputable def addDocumentEngine (st : Engine) (id : String) (content : List Char) : Engine :=
  { st with
    documentVectors := jsSet st.documentVectors id ⟨id, content, embed st.emb content⟩ }

/-- The `documentCount` field of `RAGEngine.getStats`:
`documentVectors.size || dataSource.getDocumentCount() || 0`. -/
def statsDocumentCount (st : Engine) (srcCount : ℕ) : ℕ :=
  if st.documentVectors.length ≠ 0 then st.documentVectors.length else srcCount

/-- `RAGEngine.updateConfig`: `topK` is updated only when truthy (a zero is
ignored), the threshold whenever it is not `undefined`. -/
def updateConfig (st : Engine) (cTopK : Option ℕ) (cThreshold : Option ℝ) : Engine :=
  { st with
    topK :=
      match cTopK with
      | some k => if k ≠ 0 then k else st.topK
      | none => st.topK
    similarityThreshold :=
      match cThreshold with
      | some x => x
      | none => st.similarityThreshold }

/-! ### The similarity ranker (`cosineSimilarity`, `findSimilar`) -/

/-- Did the computation throw? -/
def isErr : Except ε α → Bool
  | .error _ => true
  | .ok _ => false

def dotList (a b : List ℝ) : ℝ := (a.zip b).foldl (fun s p => s + p.1 * p.2) 0

/-- `LocalEmbeddings.cosineSimilarity`: throws on a length mismatch,
otherwise the plain dot product (vectors are pre-normalized). -/
noncomputable def cosineSimilarity (a b : List ℝ) : Except String ℝ :=
  if a.length ≠ b.length then .error "Vectors must have the same dimension"
  else .ok (dotList a b)

/-- `documents.map(doc => ({id, score: cosineSimilarity(...)}))`, with the
first thrown error propagating. -/
noncomputable def mapScores (qv : List ℝ) : List VEntry → Except String (List (String × ℝ))
  | [] => .ok []
  | d :: ds =>
    match cosineSimilarity qv d.vector with
    | .error e => .error e
    | .ok s =>
      match mapScores qv ds with
      | .error e => .error e
      | .ok rest => .ok ((d.id, s) :: rest)

/-- `scores.sort((a, b) => b.score - a.score)`.  ES2019 requires
`Array.prototype.sort` to be stable; `List.insertionSort` with this
comparator is exactly a stable descending-by-score sort. -/
noncomputable def sortByScoreDesc (scores : List (String × ℝ)) : List (String × ℝ) :=
  List.insertionSort (fun a b => b.2 ≤ a.2) scores

/-- `LocalEmbeddings.findSimilar`. -/
noncomputable def findSimilar (qv : List ℝ) (docs : List VEntry) (topK : ℕ) :
    Except String (List (String × ℝ)) :=
  match mapScores qv docs with
  | .error e => .error e
  | .ok scores => .ok ((sortByScoreDesc scores).take topK)

/-- Rebuilding a retrieval result from a ranked id:
`this.documentVectors.get(id)` (always present for ids drawn from the
cache; JS would crash otherwise, modelled by a dummy). -/
noncomputable def mkRResult (st : Engine) (p : String × ℝ) : RResult :=
  match jsGet st.documentVectors p.1 with
  | some doc => ⟨doc.id, doc.content, p.2⟩
  | none => ⟨p.1, [], p.2⟩

/-- `RAGEngine.retrieveByVector`: over-fetch `2*topK` candidates, keep in
rank order those meeting the threshold up to `topK`, and fall back to the
top `topK` candidates when none passed but candidates exist. -/
noncomputable def retrieveByVector (st : Engine) (query : List Char) (topK : ℕ) :
    Except String (List RResult) :=
  match findSimilar (embed st.emb query) (jsValues st.documentVectors) (topK * 2) with
  | .error e => .error e
  | .ok sims =>
    let results := sims.foldl
      (fun acc p =>
        if st.similarityThreshold ≤ p.2 ∧ acc.length < topK then acc ++ [mkRResult st p]
        else acc)
      []
    .ok (if results.length = 0 ∧ 0 < sims.length then (sims.take topK).map (mkRResult st)
      else results)

/-- `RAGEngine.retrieve`: vector retrieval when a cache is populated, else
the external source's own search (passed in as a value). -/
noncomputable def retrieve (st : Engine) (query : List Char) (topK : ℕ)
    (srcSearch : List RResult) : Except String (List RResult) :=
  if 0 < st.documentVectors.length then retrieveByVector st query topK
  else .ok srcSearch

/-- Modelled from the claim: the result shape claim C2 describes — the
threshold survivors in rank order up to `topK`, or the bare top `topK`
candidates when no candidate passed. -/
noncomputable def specRetrieveShape (st : Engine) (topK : ℕ) (sims : List (String × ℝ)) :
    List RResult :=
  let kept := (sims.filter (fun p => decide (st.similarityThreshold ≤ p.2))).take topK
  (if kept.length = 0 then sims.take topK else kept).map (mkRResult st)

/-! ### Concrete inputs used by witnesses and counterexamples -/

/-- Text of 24 characters whose only boundary marker is the ". " at index 6. -/
def c5Text : List Char := String.toList "abcdef. abcdefghijklmnop"

/-- A short text on which chunking with chunkSize 4, overlap 1 terminates. -/
def c5OkText : List Char := String.toList "abcdefgh"

/-- Text of 20 characters with a line break at index 6 and a ". " at index 8:
with a window `[0, 10)` the nearest marker is the ". " but the code prefers
the line break. -/
def c6Text : List Char := String.toList "abcdef\nx. zzzzzzzzzz"

/-- A fresh one-dimensional vectorizer (dimension 1 keeps the witnesses
small; it is a legal configuration value). -/
def embFresh : LocalEmb :=
  { dimension := 1, vocabulary := [], idf := [], documentCount := 0, initDone := false }

/-- The single token of `abText` ("ab") hashes to 3105 > 0. -/
def abText : List Char := String.toList "ab"

/-- "ab" hashes positive, "aaaaaa" hashes to -1425372064 < 0; with
dimension 1 both tokens land in bucket 0 with weight 1 each and cancel. -/
def c7Text : List Char := String.toList "ab aaaaaa"

/-- A fresh engine around `embFresh` with the default topK 5 and
similarity threshold 0.3. -/
noncomputable def engFresh : Engine :=
  { emb := embFresh, topK := 5, similarityThreshold := 3 / 10,
    documentVectors := [], initDone := false }

/-- A cache entry holding the (already unit-norm) vector `[1]`. -/
noncomputable def entryOne : VEntry := ⟨"d1", String.toList "x", [1]⟩

/-- A ready engine with a single cached entry. -/
noncomputable def engOne : Engine :=
  { engFresh with documentVectors := [("d1", entryOne)], initDone := true }

def docA : Doc := ⟨"a", String.toList "aa"⟩

def docB : Doc := ⟨"b", String.toList "bb"⟩

def docD : Doc := ⟨"d", c7Text⟩

end RagJs

namespace RagJs

/-! ## Lemmas about the chunker -/

theorem lastIndexOfAux_spec (t p : List Char) (m : ℕ) :
    (lastIndexOfAux t p m = -1 ∧ ∀ i, i ≤ m → occursAt t p i = false) ∨
    (∃ l : ℕ, l ≤ m ∧ occursAt t p l = true ∧ lastIndexOfAux t p m = l ∧
      ∀ i : ℕ, l < i → i ≤ m → occursAt t p i = false) := by
  induction m with
  | zero =>
    by_cases h : occursAt t p 0
    · exact Or.inr ⟨0, le_refl 0, h, by simp [lastIndexOfAux, h], by omega⟩
    · refine Or.inl ⟨by simp [lastIndexOfAux, h], fun i hi => ?_⟩
      have : i = 0 := by omega
      subst this; simpa using h
  | succ m ih =>
    by_cases h : occursAt t p (m + 1)
    · refine Or.inr ⟨m + 1, le_refl _, h, by simp [lastIndexOfAux, h], fun i h1 h2 => ?_⟩
      omega
    · rcases ih with ⟨h1, h2⟩ | ⟨l, hl, hocc, heq, hmax⟩
      · refine Or.inl ⟨by simp [lastIndexOfAux, h, h1], fun i hi => ?_⟩
        rcases Nat.le_succ_iff_eq_or_le.mp hi with hi | hi
        · subst hi; simpa using h
        · exact h2 i hi
      · refine Or.inr ⟨l, Nat.le_succ_of_le hl, hocc, by simp [lastIndexOfAux, h, heq],
          fun i hli hi => ?_⟩
        rcases Nat.le_succ_iff_eq_or_le.mp hi with hi | hi
        · subst hi; simpa using h
        · exact hmax i hli hi

theorem le_foldr_max {L : List ℕ} {x : ℕ} (h : x ∈ L) : x ≤ L.foldr max 0 := by
  induction L with
  | nil => simp at h
  | cons a L ih =>
    rcases List.mem_cons.mp h with rfl | h
    · exact le_max_left _ _
    · exact le_trans (ih h) (le_max_right _ _)

theorem foldr_max_le {L : List ℕ} {b : ℕ} (h : ∀ x ∈ L, x ≤ b) : L.foldr max 0 ≤ b := by
  induction L with
  | nil => simp
  | cons a L ih =>
    exact max_le (h a (List.mem_cons_self a L)) (ih fun x hx => h x (List.mem_cons_of_mem a hx))

theorem foldr_max_eq {L : List ℕ} {l : ℕ} (h1 : l ∈ L) (h2 : ∀ x ∈ L, x ≤ l) :
    L.foldr max 0 = l :=
  le_antisymm (foldr_max_le h2) (le_foldr_max h1)

theorem mem_qualPositions {t : List Char} {start cs : ℤ} {bp : List Char} {l : ℕ} :
    l ∈ qualPositions t start cs bp ↔
      l ≤ (start + cs).toNat ∧ occursAt t bp l = true ∧ 2 * (l : ℤ) > 2 * start + cs := by
  simp only [qualPositions, List.mem_filter, List.mem_range, Bool.and_eq_true,
    decide_eq_true_eq]
  constructor <;> rintro ⟨h1, h2, h3⟩ <;> exact ⟨by omega, h2, h3⟩

theorem lastIndexOf_cond_iff (t : List Char) {start cs : ℤ} (bp : List Char)
    (h0 : 0 ≤ start) (hcs : 0 ≤ cs) (hlen : start + cs < (t.length : ℤ)) :
    (2 * lastIndexOf t bp (start + cs) > 2 * start + cs ↔
      qualPositions t start cs bp ≠ []) ∧
    (2 * lastIndexOf t bp (start + cs) > 2 * start + cs →
      lastIndexOf t bp (start + cs) =
        Int.ofNat ((qualPositions t start cs bp).foldr max 0)) := by
  have hm : min (start + cs) (t.length : ℤ) = start + cs := min_eq_left (le_of_lt hlen)
  have hmn : ((start + cs).toNat : ℤ) = start + cs := Int.toNat_of_nonneg (by omega)
  rw [lastIndexOf, hm]
  rcases lastIndexOfAux_spec t bp (start + cs).toNat with ⟨heq, hnone⟩ | ⟨l, hl, hocc, heq, hmax⟩
  · rw [heq]
    constructor
    · constructor
      · intro hgt; omega
      · intro hne
        exfalso
        rcases List.exists_mem_of_ne_nil _ hne with ⟨x, hx⟩
        rcases mem_qualPositions.mp hx with ⟨hx1, hx2, _⟩
        rw [hnone x hx1] at hx2; cases hx2
    · intro hgt; omega
  · rw [heq]
    have hmem : 2 * (l : ℤ) > 2 * start + cs → l ∈ qualPositions t start cs bp :=
      fun hgt => mem_qualPositions.mpr ⟨hl, hocc, hgt⟩
    constructor
    · constructor
      · intro hgt
        exact List.ne_nil_of_mem (hmem hgt)
      · intro hne
        rcases List.exists_mem_of_ne_nil _ hne with ⟨x, hx⟩
        rcases mem_qualPositions.mp hx with ⟨hx1, hx2, hx3⟩
        have hxl : x ≤ l := by
          by_contra hc
          rw [hmax x (by omega) hx1] at hx2; cases hx2
        omega
    · intro hgt
      have hub : ∀ x ∈ qualPositions t start cs bp, x ≤ l := by
        intro x hx
        rcases mem_qualPositions.mp hx with ⟨hx1, hx2, _⟩
        by_contra hc
        rw [hmax x (by omega) hx1] at hx2; cases hx2
      simp [foldr_max_eq (hmem hgt) hub]

theorem findBreak_eq_spec {t : List Char} {start cs : ℤ}
    (h0 : 0 ≤ start) (hcs : 0 ≤ cs) (hlen : start + cs < (t.length : ℤ)) :
    ∀ bps : List (List Char),
      findBreak t start cs (start + cs) bps =
        match bps.find? (fun bp => !(qualPositions t start cs bp).isEmpty) with
        | some bp => some (Int.ofNat ((qualPositions t start cs bp).foldr max 0), bp.length)
        | none => none := by
  intro bps
  induction bps with
  | nil => rfl
  | cons bp bps ih =>
    have h := lastIndexOf_cond_iff t bp h0 hcs hlen
    by_cases hc : 2 * lastIndexOf t bp (start + cs) > 2 * start + cs
    · have heq2 := h.2 hc
      have hne : (qualPositions t start cs bp).isEmpty = false := by
        have := h.1.mp hc
        simpa [List.isEmpty_iff] using this
      simp only [findBreak, List.find?, hne, Bool.not_false]
      rw [if_pos hc, heq2]
    · have hne : (qualPositions t start cs bp).isEmpty = true := by
        by_contra hcon
        exact hc (h.1.mpr (by simpa [List.isEmpty_iff] using hcon))
      simp only [findBreak, if_neg hc, List.find?, hne, Bool.not_true, ih]

theorem findBreak_bound {t : List Char} {start cs e : ℤ} :
    ∀ (bps : List (List Char)) (l : ℤ) (w : ℕ),
      findBreak t start cs e bps = some (l, w) →
      2 * l > 2 * start + cs ∧ ∃ bp ∈ bps, w = bp.length := by
  intro bps
  induction bps with
  | nil => intro l w h; cases h
  | cons bp bps ih =>
    intro l w h
    by_cases hc : 2 * lastIndexOf t bp e > 2 * start + cs
    · simp only [findBreak, if_pos hc, Option.some_inj] at h
      obtain ⟨h1, h2⟩ := Prod.ext_iff.mp h
      subst h1; subst h2
      exact ⟨hc, bp, List.mem_cons_self bp bps, rfl⟩
    · simp only [findBreak, if_neg hc] at h
      obtain ⟨hgt, bp2, hbp2, hw⟩ := ih l w h
      exact ⟨hgt, bp2, List.mem_cons_of_mem bp hbp2, hw⟩

theorem chunkStep_progress (cfg : ChunkCfg) (t : List Char)
    (hov : 0 ≤ cfg.chunkOverlap) (hcs : 0 < cfg.chunkSize)
    (h2 : 2 * cfg.chunkOverlap ≤ cfg.chunkSize) :
    ∀ start : ℤ, start < (t.length : ℤ) → start < chunkStep cfg t start := by
  intro start hstart
  unfold chunkStep selectEnd
  by_cases he : start + cfg.chunkSize < (t.length : ℤ)
  · simp only [if_pos he]
    cases hfb : findBreak t start cfg.chunkSize (start + cfg.chunkSize) breakPoints with
    | none => simp only []; omega
    | some p =>
      obtain ⟨l, w⟩ := p
      obtain ⟨hgt, bp, hbp, hw⟩ := findBreak_bound breakPoints l w hfb
      have hw1 : 1 ≤ w := by
        subst hw
        fin_cases hbp <;> simp
      simp only []
      omega
  · simp only [if_neg he]; omega

theorem chunkLoop_isSome (cfg : ChunkCfg) (t : List Char)
    (hprog : ∀ s : ℤ, s < (t.length : ℤ) → s < chunkStep cfg t s) :
    ∀ (fuel : ℕ) (start : ℤ) (acc : List (List Char)),
      (t.length : ℤ) - start < fuel → 1 ≤ fuel →
      (chunkLoop cfg t fuel start acc).isSome = true := by
  intro fuel
  induction fuel with
  | zero => intro start acc _ h1; omega
  | succ n ih =>
    intro start acc hf _
    by_cases hs : start < (t.length : ℤ)
    · have hstep := hprog start hs
      rw [chunkLoop, if_pos hs]
      exact ih _ _ (by unfold chunkStep at hstep; push_cast at hf ⊢; omega)
        (by unfold chunkStep at hstep; push_cast at hf; omega)
    · rw [chunkLoop, if_neg hs]; rfl

/-! ## Claim C5: chunking termination -/

/-- C5 counterexample: chunkSize 10, chunkOverlap 8 satisfies the claimed
precondition 0 ≤ overlap < chunkSize, yet on `c5Text` the very first loop
iteration leaves `start` at 0 (the boundary search pulls `end` back to 8
and 8 - 8 = 0), so the window start is not strictly increasing and `chunkText`
exhausts any fuel: the loop never terminates. -/
theorem c5_chunk_counterexample :
    (0 : ℤ) ≤ 8 ∧ (8 : ℤ) < 10 ∧ (0 : ℤ) < (c5Text.length : ℤ) ∧
      chunkStep ⟨10, 8⟩ c5Text 0 = 0 ∧ chunkText ⟨10, 8⟩ c5Text = none := by decide

/-- C5 amended: for every text and every configuration with
0 ≤ chunkOverlap and 2 * chunkOverlap ≤ chunkSize (0 < chunkSize), the
window start strictly increases on every loop iteration and `chunkText`
terminates.  The original bound chunkOverlap < chunkSize is not sufficient
(see `c5_chunk_counterexample`): the boundary search may pull `end` back as
far as `start + chunkSize/2`, so the overlap must stay below half the
chunk size. -/
theorem c5_chunk_termination (cfg : ChunkCfg) (t : List Char)
    (hov : 0 ≤ cfg.chunkOverlap) (hcs : 0 < cfg.chunkSize)
    (h2 : 2 * cfg.chunkOverlap ≤ cfg.chunkSize) :
    (∀ start : ℤ, start < (t.length : ℤ) → start < chunkStep cfg t start) ∧
    (chunkText cfg t).isSome = true := by
  have hprog := chunkStep_progress cfg t hov hcs h2
  refine ⟨hprog, ?_⟩
  unfold chunkText
  by_cases hle : (t.length : ℤ) ≤ cfg.chunkSize
  · rw [if_pos hle]; rfl
  · rw [if_neg hle]
    have hsome := chunkLoop_isSome cfg t hprog (t.length + 1) 0 []
      (by push_cast; omega) (by omega)
    cases hcl : chunkLoop cfg t (t.length + 1) 0 [] with
    | none => rw [hcl] at hsome; cases hsome
    | some l => simp [hcl]

/-- Witness for `c5_chunk_termination` on a concrete text and configuration. -/
theorem c5_chunk_termination_witness :
    (0 : ℤ) ≤ 1 ∧ 2 * (1 : ℤ) ≤ 4 ∧ (0 : ℤ) < 4 ∧
      (chunkText ⟨4, 1⟩ c5OkText).isSome = true :=
  ⟨by decide, by decide, by decide,
    (c5_chunk_termination ⟨4, 1⟩ c5OkText (by decide) (by decide) (by decide)).2⟩

/-! ## Claim C6: chunk boundary selection -/

/-- C6 counterexample: on `c6Text` with chunkSize 10 and window start 0,
the nearest qualifying boundary marker is the ". " at index 8 (the claim
would set `end = 10`), but the code tries marker types in a fixed priority
order and picks the '\n' at index 6, setting `end = 7`. -/
theorem c6_boundary_counterexample :
    selectEnd ⟨10, 0⟩ c6Text 0 = 7 ∧ specNearestEnd ⟨10, 0⟩ c6Text 0 = 10 := by decide

/-- C6 amended: whenever the tentative end `start + chunkSize` is strictly
before the end of the text (and 0 ≤ start, 0 ≤ chunkSize), the emitted
window ends just after the last qualifying occurrence of the FIRST marker
type, in the fixed priority order paragraph break, line break, '. ', '! ',
'? ', that has an occurrence starting at or before `end` and strictly
later than `start + chunkSize/2`; if no marker type qualifies, `end`
remains `start + chunkSize`.  The original "nearest marker of any type" is
refuted by `c6_boundary_counterexample`. -/
theorem c6_boundary_priority (cfg : ChunkCfg) (t : List Char) (start : ℤ)
    (h0 : 0 ≤ start) (hcs : 0 ≤ cfg.chunkSize)
    (h : start + cfg.chunkSize < (t.length : ℤ)) :
    selectEnd cfg t start = specPriorityEnd cfg t start := by
  unfold selectEnd specPriorityEnd
  simp only [if_pos h]
  rw [findBreak_eq_spec h0 hcs h breakPoints]
  cases hfind : breakPoints.find?
      (fun bp => !(qualPositions t start cfg.chunkSize bp).isEmpty) with
  | some bp => simp [hfind]
  | none => simp [hfind]

/-- Witness for `c6_boundary_priority` at a concrete window. -/
theorem c6_boundary_priority_witness :
    (0 : ℤ) ≤ 0 ∧ (0 : ℤ) ≤ 10 ∧ (0 : ℤ) + 10 < (c6Text.length : ℤ) ∧
      selectEnd ⟨10, 2⟩ c6Text 0 = specPriorityEnd ⟨10, 2⟩ c6Text 0 :=
  ⟨by decide, by decide, by decide,
    c6_boundary_priority ⟨10, 2⟩ c6Text 0 (by decide) (by decide) (by decide)⟩

/-! ## Lemmas about the JS `Map` model -/

theorem jsGet_cons [DecidableEq κ] (a : κ) (b : α) (m : List (κ × α)) (k : κ) :
    jsGet ((a, b) :: m) k = if a = k then some b else jsGet m k := by
  by_cases h : a = k <;> simp [jsGet, List.find?, h]

theorem jsHas_eq_isSome [DecidableEq κ] (m : List (κ × α)) (k : κ) :
    jsHas m k = (jsGet m k).isSome := by
  simp [jsHas, jsGet]

theorem jsGet_mapReplace [DecidableEq κ] (m : List (κ × α)) (k t : κ) (v : α) :
    jsGet (m.map (fun p => if p.1 = k then (k, v) else p)) t =
      if t = k then (if (jsGet m k).isSome then some v else none) else jsGet m t := by
  induction m with
  | nil => by_cases h : t = k <;> simp [jsGet, h]
  | cons p m ih =>
    obtain ⟨a, b⟩ := p
    simp only [List.map_cons]
    by_cases hak : a = k
    · subst hak
      simp only [if_pos rfl]
      by_cases hta : a = t
      · subst hta
        simp [jsGet_cons]
      · have h2 : ¬ t = a := fun h => hta h.symm
        simp [jsGet_cons, hta, h2, ih]
    · simp only [if_neg hak, jsGet_cons]
      by_cases hta : a = t
      · subst hta
        simp [hak]
      · simp [hta, ih]

theorem jsGet_append_single [DecidableEq κ] (m : List (κ × α)) (k t : κ) (v : α) :
    jsGet (m ++ [(k, v)]) t =
      match jsGet m t with
      | some w => some w
      | none => if t = k then some v else none := by
  induction m with
  | nil => by_cases h : t = k <;> by_cases h2 : k = t <;>
      simp_all [jsGet_cons, jsGet]
  | cons p m ih =>
    obtain ⟨a, b⟩ := p
    by_cases hta : a = t <;> simp [List.cons_append, jsGet_cons, hta, ih]

theorem jsGet_jsSet [DecidableEq κ] (m : List (κ × α)) (k t : κ) (v : α) :
    jsGet (jsSet m k v) t = if t = k then some v else jsGet m t := by
  unfold jsSet
  rw [jsHas_eq_isSome]
  by_cases hk : (jsGet m k).isSome
  · rw [if_pos hk, jsGet_mapReplace, if_pos hk]
  · rw [if_neg hk, jsGet_append_single]
    by_cases htk : t = k
    · subst htk
      cases hg : jsGet m t with
      | none => simp
      | some w => rw [hg] at hk; simp at hk
    · cases hg : jsGet m t <;> simp [htk]

theorem jsKeys_jsSet [DecidableEq κ] (m : List (κ × α)) (k : κ) (v : α) :
    jsKeys (jsSet m k v) =
      if (jsGet m k).isSome then jsKeys m else jsKeys m ++ [k] := by
  unfold jsSet
  rw [jsHas_eq_isSome]
  by_cases hk : (jsGet m k).isSome
  · rw [if_pos hk, if_pos hk]
    simp only [jsKeys, List.map_map]
    apply List.map_congr_left
    intro p _
    by_cases h : p.1 = k <;> simp [h]
  · rw [if_neg hk, if_neg hk]
    simp [jsKeys]

theorem mem_jsKeys [DecidableEq κ] (m : List (κ × α)) (k : κ) :
    k ∈ jsKeys m ↔ (jsGet m k).isSome := by
  induction m with
  | nil => simp [jsKeys, jsGet]
  | cons p m ih =>
    obtain ⟨a, b⟩ := p
    rw [jsGet_cons]
    by_cases h : a = k
    · simp [jsKeys, h]
    · have h2 : ¬ k = a := fun hh => h hh.symm
      simp only [jsKeys, List.map_cons, List.mem_cons, h2, false_or, if_neg h]
      exact ih

theorem jsKeys_length (m : List (κ × α)) : (jsKeys m).length = m.length := by
  simp [jsKeys]

theorem jsGet_eq_some_mem [DecidableEq κ] {m : List (κ × α)} {k : κ} {v : α}
    (h : jsGet m k = some v) : (k, v) ∈ m := by
  induction m with
  | nil => simp [jsGet] at h
  | cons p m ih =>
    obtain ⟨a, b⟩ := p
    rw [jsGet_cons] at h
    by_cases hak : a = k
    · rw [if_pos hak] at h
      exact List.mem_cons.mpr (Or.inl (by cases h; rw [hak]))
    · exact List.mem_cons.mpr (Or.inr (ih (by rwa [if_neg hak] at h)))

/-! ## Claim C10: updateConfig zero-value asymmetry -/

/-- C10: `updateConfig` ignores a zero `topK` (a falsy number), so `topK`
can never become 0 through `updateConfig`, while a zero
`similarityThreshold` is applied (only `undefined` is ignored). -/
theorem c10_updateConfig_zero_asymmetry :
    (∀ st : Engine, (updateConfig st (some 0) none).topK = st.topK) ∧
    (∀ (st : Engine) (c1 : Option ℕ) (c2 : Option ℝ),
      (updateConfig st c1 c2).topK = 0 → st.topK = 0) ∧
    (∀ st : Engine, (updateConfig st none (some 0)).similarityThreshold = 0) := by
  refine ⟨fun st => rfl, ?_, fun st => rfl⟩
  intro st c1 c2 h
  cases c1 with
  | none => exact h
  | some k =>
    by_cases hk : k ≠ 0
    · simp [updateConfig, hk] at h
    · simpa [updateConfig, hk] using h

/-- Witness for `c10_updateConfig_zero_asymmetry` at a concrete state whose
`topK` is already 0 (the only way the hypothesis of the middle clause can
hold). -/
theorem c10_updateConfig_witness :
    (updateConfig { engFresh with topK := 0 } none none).topK = 0 ∧
      ({ engFresh with topK := 0 } : Engine).topK = 0 :=
  ⟨rfl, c10_updateConfig_zero_asymmetry.2.1 { engFresh with topK := 0 } none none rfl⟩

/-! ## Claim C9: dimension-mismatch error -/

/-- C9: `cosineSimilarity` throws exactly when the two vectors have
different lengths, otherwise returns precisely their dot product; and a
mismatched document inside `findSimilar` always surfaces as an error of
the whole call (it is never converted into a score). -/
theorem c9_dimension_mismatch :
    (∀ a b : List ℝ, isErr (cosineSimilarity a b) = true ↔ a.length ≠ b.length) ∧
    (∀ a b : List ℝ, a.length = b.length → cosineSimilarity a b = .ok (dotList a b)) ∧
    (∀ (qv : List ℝ) (docs : List VEntry) (topK : ℕ) (d : VEntry),
      d ∈ docs → d.vector.length ≠ qv.length → isErr (findSimilar qv docs topK) = true) := by
  refine ⟨?_, ?_, ?_⟩
  · intro a b
    by_cases h : a.length = b.length <;> simp [cosineSimilarity, isErr, h]
  · intro a b h
    simp [cosineSimilarity, h]
  · intro qv docs topK d hmem hlen
    have herr : isErr (mapScores qv docs) = true := by
      induction docs with
      | nil => simp at hmem
      | cons e docs ih =>
        rcases List.mem_cons.mp hmem with rfl | hmem2
        · have : qv.length ≠ d.vector.length := fun h => hlen h.symm
          simp [mapScores, cosineSimilarity, this, isErr]
        · cases hc : cosineSimilarity qv e.vector with
          | error msg => simp [mapScores, hc, isErr]
          | ok s =>
            have := ih hmem2
            cases hms : mapScores qv docs with
            | error msg => simp [mapScores, hc, hms, isErr]
            | ok rest => rw [hms] at this; simp [isErr] at this
    cases hms : mapScores qv docs with
    | error msg => simp [findSimilar, hms, isErr]
    | ok scores => rw [hms] at herr; simp [isErr] at herr

/-- Witness for `c9_dimension_mismatch` on concrete vectors. -/
theorem c9_dimension_mismatch_witness :
    [(1 : ℝ)].length = [(2 : ℝ)].length ∧
      cosineSimilarity [(1 : ℝ)] [(2 : ℝ)] = .ok (dotList [(1 : ℝ)] [(2 : ℝ)]) ∧
      isErr (findSimilar [(1 : ℝ)] [⟨"e", [], [(1 : ℝ), 0]⟩] 5) = true :=
  ⟨rfl, c9_dimension_mismatch.2.1 [(1 : ℝ)] [(2 : ℝ)] rfl,
    c9_dimension_mismatch.2.2 [(1 : ℝ)] [⟨"e", [], [(1 : ℝ), 0]⟩] 5 ⟨"e", [], [(1 : ℝ), 0]⟩
      (List.mem_singleton.mpr rfl) (by simp)⟩

/-! ## Claim C8: ranking order and stability -/

theorem filter_orderedInsert (r : α → α → Prop) [DecidableRel r] (p : α → Bool)
    (a : α) (l : List α) (h : ∀ b, ¬ r a b → p a = true → p b = false) :
    (List.orderedInsert r a l).filter p =
      if p a then a :: l.filter p else l.filter p := by
  induction l with
  | nil =>
    by_cases hpa : p a <;> simp [List.orderedInsert, List.filter, hpa]
  | cons b l ih =>
    by_cases hr : r a b
    · by_cases hpa : p a <;>
        simp [List.orderedInsert, hr, List.filter_cons, hpa]
    · by_cases hpa : p a
      · have hpb : p b = false := h b hr hpa
        simp [List.orderedInsert, hr, List.filter_cons, hpb, hpa, ih]
      · simp [List.orderedInsert, hr, List.filter_cons, hpa, ih]

theorem filter_insertionSort (r : α → α → Prop) [DecidableRel r] (p : α → Bool)
    (h : ∀ a b, ¬ r a b → p a = true → p b = false) (l : List α) :
    (List.insertionSort r l).filter p = l.filter p := by
  induction l with
  | nil => rfl
  | cons a l ih =>
    simp only [List.insertionSort]
    rw [filter_orderedInsert r p a _ (h a), List.filter_cons]
    by_cases hpa : p a <;> simp [hpa, ih]

/-- C8: `findSimilar` returns the scored pairs sorted descending by score,
truncated to the first `topK`, and the sort is stable: the pairs carrying
any given score appear in their original relative order. -/
theorem c8_ranking_order (qv : List ℝ) (docs : List VEntry) (topK : ℕ)
    (scores l : List (String × ℝ))
    (hs : mapScores qv docs = .ok scores)
    (hf : findSimilar qv docs topK = .ok l) :
    (sortByScoreDesc scores).Perm scores ∧
    (sortByScoreDesc scores).Pairwise (fun a b => b.2 ≤ a.2) ∧
    (∀ s : ℝ, (sortByScoreDesc scores).filter (fun p => decide (p.2 = s)) =
      scores.filter (fun p => decide (p.2 = s))) ∧
    l = (sortByScoreDesc scores).take topK := by
  unfold sortByScoreDesc
  refine ⟨List.perm_insertionSort _ _, ?_, ?_, ?_⟩
  · letI : IsTotal (String × ℝ) (fun a b => b.2 ≤ a.2) := ⟨fun a b => le_total b.2 a.2⟩
    letI : IsTrans (String × ℝ) (fun a b => b.2 ≤ a.2) := ⟨fun a b c h1 h2 => le_trans h2 h1⟩
    exact List.sorted_insertionSort _ _
  · intro s
    apply filter_insertionSort
    intro a b hr hpa
    simp only [decide_eq_true_eq] at hpa
    simp only [decide_eq_false_iff_not]
    intro hpb
    exact hr (le_of_eq (by rw [hpa, hpb]))
  · unfold findSimilar at hf
    rw [hs] at hf
    exact (Except.ok.inj hf).symm

/-- Witness for `c8_ranking_order`: three concrete one-dimensional
documents, two of them tied at score 1. -/
theorem c8_ranking_order_witness :
    mapScores [(1 : ℝ)] [⟨"a", [], [1]⟩, ⟨"b", [], [1]⟩, ⟨"c", [], [0]⟩] =
      .ok [("a", (1 : ℝ)), ("b", 1), ("c", 0)] ∧
    (sortByScoreDesc [("a", (1 : ℝ)), ("b", 1), ("c", 0)]).Pairwise (fun a b => b.2 ≤ a.2) ∧
    (sortByScoreDesc [("a", (1 : ℝ)), ("b", 1), ("c", 0)]).filter (fun p => decide (p.2 = 1)) =
      [("a", (1 : ℝ)), ("b", 1), ("c", 0)].filter (fun p => decide (p.2 = 1)) ∧
    [("a", (1 : ℝ)), ("b", 1), ("c", 0)] =
      (sortByScoreDesc [("a", (1 : ℝ)), ("b", 1), ("c", 0)]).take 5 := by
  have hs : mapScores [(1 : ℝ)] [⟨"a", [], [1]⟩, ⟨"b", [], [1]⟩, ⟨"c", [], [0]⟩] =
      .ok [("a", (1 : ℝ)), ("b", 1), ("c", 0)] := by
    norm_num [mapScores, cosineSimilarity, dotList]
  have hf : findSimilar [(1 : ℝ)] [⟨"a", [], [1]⟩, ⟨"b", [], [1]⟩, ⟨"c", [], [0]⟩] 5 =
      .ok [("a", (1 : ℝ)), ("b", 1), ("c", 0)] := by
    unfold findSimilar
    rw [hs]
    norm_num [sortByScoreDesc, List.insertionSort, List.orderedInsert]
  have H := c8_ranking_order [(1 : ℝ)] [⟨"a", [], [1]⟩, ⟨"b", [], [1]⟩, ⟨"c", [], [0]⟩] 5
    [("a", (1 : ℝ)), ("b", 1), ("c", 0)] [("a", (1 : ℝ)), ("b", 1), ("c", 0)] hs hf
  exact ⟨hs, H.2.1, H.2.2.1 1, H.2.2.2⟩

/-! ## Lemmas about `sumSq`, `l2norm` and `normalize` -/

theorem sumSq_shift (v : List ℝ) : ∀ a : ℝ, v.foldl (fun s x => s + x * x) a = a + sumSq v := by
  induction v with
  | nil => intro a; simp [sumSq]
  | cons x v ih =>
    intro a
    simp only [sumSq, List.foldl_cons] at *
    rw [ih (a + x * x), ih (0 + x * x)]
    ring

theorem sumSq_cons (x : ℝ) (v : List ℝ) : sumSq (x :: v) = x * x + sumSq v := by
  show (x :: v).foldl (fun s y => s + y * y) 0 = x * x + sumSq v
  rw [List.foldl_cons, sumSq_shift v (0 + x * x)]
  ring

theorem sumSq_nonneg (v : List ℝ) : 0 ≤ sumSq v := by
  induction v with
  | nil => simp [sumSq]
  | cons x v ih =>
    rw [sumSq_cons]
    have := mul_self_nonneg x
    linarith

theorem sumSq_eq_zero_iff (v : List ℝ) : sumSq v = 0 ↔ ∀ x ∈ v, x = 0 := by
  induction v with
  | nil => simp [sumSq]
  | cons x v ih =>
    rw [sumSq_cons]
    constructor
    · intro h
      have h1 : x * x = 0 ∧ sumSq v = 0 := by
        constructor <;> nlinarith [mul_self_nonneg x, sumSq_nonneg v]
      intro y hy
      rcases List.mem_cons.mp hy with rfl | hy
      · exact mul_self_eq_zero.mp h1.1
      · exact ih.mp h1.2 y hy
    · intro h
      have hx : x = 0 := h x (List.mem_cons_self x v)
      have hv : sumSq v = 0 := ih.mpr fun y hy => h y (List.mem_cons_of_mem x hy)
      rw [hx, hv]; ring

theorem sumSq_map_div (v : List ℝ) (n : ℝ) :
    sumSq (v.map (fun x => x / n)) = sumSq v / (n * n) := by
  induction v with
  | nil => simp [sumSq]
  | cons x v ih =>
    rw [List.map_cons, sumSq_cons, sumSq_cons, ih, div_mul_div_comm, add_div]

theorem l2norm_eq_zero_iff (v : List ℝ) : l2norm v = 0 ↔ ∀ x ∈ v, x = 0 := by
  unfold l2norm
  rw [Real.sqrt_eq_zero' ]
  constructor
  · intro h
    exact (sumSq_eq_zero_iff v).mp (le_antisymm h (sumSq_nonneg v))
  · intro h
    exact le_of_eq ((sumSq_eq_zero_iff v).mpr h)

theorem normalize_length (v : List ℝ) : (normalize v).length = v.length := by
  unfold normalize
  split <;> simp

theorem l2norm_normalize (v : List ℝ) (h : l2norm v ≠ 0) : l2norm (normalize v) = 1 := by
  have hS : sumSq v ≠ 0 := by
    intro hc
    exact h (by unfold l2norm; rw [hc, Real.sqrt_zero])
  unfold normalize
  rw [if_neg h]
  unfold l2norm
  rw [sumSq_map_div, Real.mul_self_sqrt (sumSq_nonneg v), div_self hS, Real.sqrt_one]

/-! ## Lemmas about `addAt` and the accumulation fold -/

theorem addAt_length (v : List ℝ) (i : ℕ) (x : ℝ) : (addAt v i x).length = v.length := by
  simp [addAt]

theorem getD_set_self : ∀ (v : List ℝ) (i : ℕ), i < v.length → ∀ x : ℝ,
    (v.set i x).getD i 0 = x := by
  intro v
  induction v with
  | nil => intro i hi; simp at hi
  | cons a v ih =>
    intro i hi x
    cases i with
    | zero => simp
    | succ i => simpa using ih i (by simpa using hi) x

theorem getD_set_ne : ∀ (v : List ℝ) (i j : ℕ), i ≠ j → ∀ x : ℝ,
    (v.set i x).getD j 0 = v.getD j 0 := by
  intro v
  induction v with
  | nil => intro i j _ x; simp
  | cons a v ih =>
    intro i j hij x
    cases i with
    | zero =>
      cases j with
      | zero => exact absurd rfl hij
      | succ j => simp
    | succ i =>
      cases j with
      | zero => simp
      | succ j => simpa using ih i j (by omega) x

theorem getD_replicate (n b : ℕ) : (List.replicate n (0 : ℝ)).getD b 0 = 0 := by
  induction n generalizing b with
  | zero => simp
  | succ n ih =>
    cases b with
    | zero => simp
    | succ b => simpa [List.replicate] using ih b

theorem addAt_getD_self (v : List ℝ) (i : ℕ) (x : ℝ) (h : i < v.length) :
    (addAt v i x).getD i 0 = v.getD i 0 + x := by
  unfold addAt
  exact getD_set_self v i h _

theorem addAt_getD_ne (v : List ℝ) (i j : ℕ) (x : ℝ) (h : i ≠ j) :
    (addAt v i x).getD j 0 = v.getD j 0 := by
  unfold addAt
  exact getD_set_ne v i j h _

theorem foldl_addAt_length (f : α → ℕ) (g : α → ℝ) :
    ∀ (l : List α) (v : List ℝ),
      (l.foldl (fun w p => addAt w (f p) (g p)) v).length = v.length := by
  intro l
  induction l with
  | nil => intro v; rfl
  | cons p l ih =>
    intro v
    rw [List.foldl_cons, ih, addAt_length]

theorem foldl_addAt_getD (f : α → ℕ) (g : α → ℝ) :
    ∀ (l : List α) (v : List ℝ) (b : ℕ), b < v.length →
      (l.foldl (fun w p => addAt w (f p) (g p)) v).getD b 0 =
        v.getD b 0 + ((l.filter (fun p => decide (f p = b))).map g).sum := by
  intro l
  induction l with
  | nil => intro v b _; simp
  | cons p l ih =>
    intro v b hb
    rw [List.foldl_cons, ih _ b (by rwa [addAt_length])]
    by_cases hfp : f p = b
    · subst hfp
      rw [addAt_getD_self v (f p) (g p) hb,
        List.filter_cons_of_pos (by simp), List.map_cons, List.sum_cons]
      ring
    · rw [addAt_getD_ne v _ b _ hfp,
        List.filter_cons_of_neg (by simp [hfp])]

theorem idfFactor_eq (st : LocalEmb) (t : List Char) :
    idfFactor st t = jsOrReal (jsGet st.idf t) 1 := by
  unfold idfFactor jsOrReal
  rfl

theorem accumVector_length (st : LocalEmb) (text : List Char) :
    (accumVector st text).length = st.dimension := by
  have h := foldl_addAt_length
    (fun p : List Char × ℕ => (hashString p.1).natAbs % st.dimension)
    (fun p : List Char × ℕ =>
      (if 0 ≤ hashString p.1 then (1 : ℝ) else -1) *
        ((p.2 : ℝ) / (maxTf (tfOf text) : ℝ)) * jsOrReal (jsGet st.idf p.1) 1)
    (tfOf text) (List.replicate st.dimension 0)
  rw [List.length_replicate] at h
  exact h

theorem accumVector_getD (st : LocalEmb) (text : List Char) (b : ℕ)
    (hb : b < st.dimension) :
    (accumVector st text).getD b 0 = bucketContribution st text b := by
  have h := foldl_addAt_getD
    (fun p : List Char × ℕ => (hashString p.1).natAbs % st.dimension)
    (fun p : List Char × ℕ =>
      (if 0 ≤ hashString p.1 then (1 : ℝ) else -1) *
        ((p.2 : ℝ) / (maxTf (tfOf text) : ℝ)) * jsOrReal (jsGet st.idf p.1) 1)
    (tfOf text) (List.replicate st.dimension 0) b (by rwa [List.length_replicate])
  rw [getD_replicate] at h
  simp only [bucketContribution, bucketOf, signOf, idfFactor_eq]
  exact h.trans (zero_add _)

/-! ## Claim C3: the unseen-term IDF fallback -/

/-- C3 amended: `embed` is total and never fails, and in the dense
accumulation every token lacking an IDF entry contributes with the
fallback IDF factor 1 (the `|| 1` of the bucket loop), not `ln(N+2)` — the
`ln(N+2)` fallback exists only in the unused sparse intermediate.  Each
bucket of the pre-normalization vector is exactly the sum of
`sign(hash) * (tf/maxTf) * idfFactor` over the distinct tokens hashing to
it, where `idfFactor` is the stored weight when present and nonzero and 1
otherwise. -/
theorem c3_unseen_idf_fallback_one (st : LocalEmb) (text : List Char) :
    (accumVector st text).length = st.dimension ∧
    ∀ b : ℕ, b < st.dimension →
      (accumVector st text).getD b 0 = bucketContribution st text b :=
  ⟨accumVector_length st text, fun b hb => accumVector_getD st text b hb⟩

/-- Witness for `c3_unseen_idf_fallback_one` on a fresh vectorizer. -/
theorem c3_unseen_idf_fallback_one_witness :
    0 < embFresh.dimension ∧
      (accumVector embFresh abText).getD 0 0 = bucketContribution embFresh abText 0 :=
  ⟨by decide, (c3_unseen_idf_fallback_one embFresh abText).2 0 (by decide)⟩

theorem accum_embFresh_ab : accumVector embFresh abText = [1] := by
  have htf : tfOf abText = [(String.toList "ab", 1)] := by decide
  have hh : hashString (String.toList "ab") = 3105 := by decide
  have hmax : maxTf [(String.toList "ab", 1)] = 1 := by decide
  unfold accumVector
  rw [htf, hmax]
  simp only [List.foldl_cons, List.foldl_nil, hh]
  norm_num [embFresh, jsGet, jsOrReal, addAt, List.set, List.replicate]

theorem specAccum_embFresh_ab :
    specAccumLnFallback embFresh abText = [Real.log 2] := by
  have htf : tfOf abText = [(String.toList "ab", 1)] := by decide
  have hh : hashString (String.toList "ab") = 3105 := by decide
  have hmax : maxTf [(String.toList "ab", 1)] = 1 := by decide
  unfold specAccumLnFallback
  rw [htf, hmax]
  simp only [List.foldl_cons, List.foldl_nil, hh]
  norm_num [embFresh, jsGet, jsOrReal, addAt, List.set, List.replicate]

/-- C3 counterexample: on a fresh vocabulary (corpus size N = 0) the claim
predicts that the unseen token "ab" contributes with IDF `ln(N+2) = ln 2`,
but the code's bucket loop uses the fallback 1: the two accumulations
differ (`1 ≠ ln 2`). -/
theorem c3_ln_fallback_counterexample :
    accumVector embFresh abText ≠ specAccumLnFallback embFresh abText := by
  rw [accum_embFresh_ab, specAccum_embFresh_ab]
  intro h
  have h1 : (1 : ℝ) = Real.log 2 := by injection h
  have h2 := Real.log_two_lt_d9
  rw [← h1] at h2
  norm_num at h2

/-! ## Claim C7: vector dimension and unit norm -/

theorem embed_length (st : LocalEmb) (text : List Char) :
    (embed st text).length = st.dimension := by
  unfold embed
  rw [normalize_length, accumVector_length]

theorem buildVectorIndex_entries (emb : LocalEmb) :
    ∀ (docs : List Doc) (m : List (String × VEntry)) (k : String) (e : VEntry),
      jsGet (docs.foldl (fun m d => jsSet m d.id (mkEntry emb d)) m) k = some e →
      jsGet m k = some e ∨ ∃ d ∈ docs, e = mkEntry emb d := by
  intro docs
  induction docs with
  | nil => intro m k e h; exact Or.inl h
  | cons d docs ih =>
    intro m k e h
    rcases ih _ k e h with hm | ⟨d2, hd2, he⟩
    · rw [jsGet_jsSet] at hm
      by_cases hk : k = d.id
      · rw [if_pos hk] at hm
        exact Or.inr ⟨d, List.mem_cons_self d docs, (Option.some.inj hm).symm⟩
      · rw [if_neg hk] at hm
        exact Or.inl hm
    · exact Or.inr ⟨d2, List.mem_cons_of_mem d hd2, he⟩

/-- C7 amended: every vector produced by `embed` (and hence every vector a
cache-populating operation stores) has exactly `dimension` components; it
is the zero vector when the accumulated pre-normalization vector is zero —
in particular when the content tokenizes to nothing — and has L2 norm 1
whenever the accumulation is nonzero.  Normalization never divides by
zero.  (The original claim is refuted by opposite-sign hash collisions:
see `c7_zero_cancellation_counterexample`.) -/
theorem c7_unit_norm_invariant :
    (∀ (st : LocalEmb) (text : List Char),
      (embed st text).length = st.dimension ∧
      (tokenize text = [] → embed st text = List.replicate st.dimension 0) ∧
      (accumVector st text = List.replicate st.dimension 0 →
        embed st text = List.replicate st.dimension 0) ∧
      (accumVector st text ≠ List.replicate st.dimension 0 →
        l2norm (embed st text) = 1)) ∧
    (∀ (st : Engine) (docs : List Doc) (k : String) (e : VEntry),
      jsGet (buildVectorIndex st docs).documentVectors k = some e →
      (k, e) ∈ st.documentVectors ∨ ∃ d ∈ docs, e = mkEntry st.emb d) := by
  constructor
  · intro st text
    have hzero : accumVector st text = List.replicate st.dimension 0 →
        embed st text = List.replicate st.dimension 0 := by
      intro h
      unfold embed
      rw [h, normalize]
      rw [if_pos ((l2norm_eq_zero_iff _).mpr (by simp [List.eq_of_mem_replicate]))]
    refine ⟨embed_length st text, ?_, hzero, ?_⟩
    · intro htok
      apply hzero
      unfold accumVector
      have htf : tfOf text = [] := by unfold tfOf; rw [htok]; rfl
      rw [htf, List.foldl_nil]
    · intro hne
      unfold embed
      apply l2norm_normalize
      intro h0
      apply hne
      have hall := (l2norm_eq_zero_iff _).mp h0
      exact List.eq_replicate_iff.mpr ⟨accumVector_length st text, hall⟩
  · intro st docs k e h
    simp only [buildVectorIndex] at h
    rcases buildVectorIndex_entries st.emb docs st.documentVectors k e h with hm | hd
    · exact Or.inl (jsGet_eq_some_mem hm)
    · exact Or.inr hd

/-- Witness for `c7_unit_norm_invariant` at a concrete embedding with a
nonzero accumulated vector. -/
theorem c7_unit_norm_invariant_witness :
    accumVector embFresh abText ≠ List.replicate embFresh.dimension 0 ∧
      l2norm (embed embFresh abText) = 1 := by
  have hne : accumVector embFresh abText ≠ List.replicate embFresh.dimension 0 := by
    rw [accum_embFresh_ab]
    intro h
    have : (1 : ℝ) = 0 := by injection h
    norm_num at this
  exact ⟨hne, ((c7_unit_norm_invariant.1 embFresh abText).2.2.2) hne⟩

theorem accum_embFresh_c7 : accumVector embFresh c7Text = [0] := by
  have htf : tfOf c7Text = [(String.toList "ab", 1), (String.toList "aaaaaa", 1)] := by
    decide
  have hh1 : hashString (String.toList "ab") = 3105 := by decide
  have hh2 : hashString (String.toList "aaaaaa") = -1425372064 := by decide
  have hmax : maxTf [(String.toList "ab", 1), (String.toList "aaaaaa", 1)] = 1 := by decide
  unfold accumVector
  rw [htf, hmax]
  simp only [List.foldl_cons, List.foldl_nil, hh1, hh2]
  norm_num [embFresh, jsGet, jsOrReal, addAt, List.set, List.replicate]

theorem embed_embFresh_c7 : embed embFresh c7Text = [0] := by
  unfold embed
  rw [accum_embFresh_c7]
  have h0 : l2norm [(0 : ℝ)] = 0 := (l2norm_eq_zero_iff _).mpr (by simp)
  unfold normalize
  rw [if_pos h0]

/-- C7 counterexample: the content "ab aaaaaa" tokenizes to two tokens
whose 32-bit hashes have opposite signs ("ab" ↦ 3105, "aaaaaa" ↦
-1425372064); with dimension 1 their weight-1 contributions cancel, so
`buildVectorIndex` caches the zero vector for a content with recognized
tokens — its norm is 0, not 1. -/
theorem c7_zero_cancellation_counterexample :
    jsGet (buildVectorIndex engFresh [docD]).documentVectors "d" =
      some ⟨"d", c7Text, [0]⟩ ∧
    tokenize c7Text ≠ [] ∧
    l2norm [(0 : ℝ)] ≠ 1 := by
  refine ⟨?_, by decide, ?_⟩
  · have he : embed engFresh.emb docD.content = [0] := embed_embFresh_c7
    simp only [buildVectorIndex, List.foldl_cons, List.foldl_nil]
    rw [jsGet_jsSet, if_pos (show "d" = docD.id from rfl)]
    unfold mkEntry
    rw [he]
    rfl
  · rw [(l2norm_eq_zero_iff _).mpr (by simp)]
    norm_num

/-! ## Lemmas about `buildVocabulary` -/

theorem foldl_pair_split (f : β → γ → β) (g : δ → γ → δ) :
    ∀ (l : List γ) (a : β × δ),
      l.foldl (fun acc2 t => (f acc2.1 t, g acc2.2 t)) a = (l.foldl f a.1, l.foldl g a.2) := by
  intro l
  induction l with
  | nil => intro a; rfl
  | cons t l ih =>
    intro a
    rw [List.foldl_cons, List.foldl_cons, List.foldl_cons, ih]

theorem docFreqVocabStep_eq (acc : List (List Char × ℕ) × List (List Char × ℕ))
    (doc : List Char) :
    docFreqVocabStep acc doc =
      ((jsDedup (tokenize doc)).foldl bump acc.1,
       (jsDedup (tokenize doc)).foldl
         (fun voc token => if jsHas voc token then voc else jsSet voc token voc.length)
         acc.2) := by
  unfold docFreqVocabStep
  exact foldl_pair_split bump
    (fun voc token => if jsHas voc token then voc else jsSet voc token voc.length)
    (jsDedup (tokenize doc)) acc

theorem buildVocab_fold_eq :
    ∀ (docs : List (List Char)) (acc : List (List Char × ℕ) × List (List Char × ℕ)),
      docs.foldl docFreqVocabStep acc =
        (((docs.map (fun d => jsDedup (tokenize d))).flatten).foldl bump acc.1,
         ((docs.map (fun d => jsDedup (tokenize d))).flatten).foldl
           (fun voc token => if jsHas voc token then voc else jsSet voc token voc.length)
           acc.2) := by
  intro docs
  induction docs with
  | nil => intro acc; rfl
  | cons d docs ih =>
    intro acc
    rw [List.foldl_cons, ih, docFreqVocabStep_eq]
    simp [List.foldl_append]

theorem occCount_cons [DecidableEq κ] (a : κ) (l : List κ) (t : κ) :
    occCount (a :: l) t = (if a = t then 1 else 0) + occCount l t := by
  unfold occCount
  rw [List.filter_cons]
  by_cases h : a = t <;> simp [h] <;> omega

theorem occCount_eq_zero_of_not_mem [DecidableEq κ] {l : List κ} {t : κ} (h : t ∉ l) :
    occCount l t = 0 := by
  induction l with
  | nil => rfl
  | cons a l ih =>
    have hat : ¬ a = t := by
      intro ha
      subst ha
      exact h (List.mem_cons_self a l)
    rw [occCount_cons, ih (fun hm => h (List.mem_cons_of_mem a hm)), if_neg hat]

theorem occCount_append [DecidableEq κ] (l1 l2 : List κ) (t : κ) :
    occCount (l1 ++ l2) t = occCount l1 t + occCount l2 t := by
  unfold occCount
  rw [List.filter_append, List.length_append]

theorem occCount_of_nodup [DecidableEq κ] :
    ∀ (l : List κ), l.Nodup → ∀ t : κ, occCount l t = if t ∈ l then 1 else 0 := by
  intro l
  induction l with
  | nil => intro _ t; simp [occCount]
  | cons b l ih =>
    intro h t
    have hb : b ∉ l := (List.nodup_cons.mp h).1
    have hl : l.Nodup := (List.nodup_cons.mp h).2
    rw [occCount_cons, ih hl t]
    by_cases hbt : b = t
    · subst hbt
      simp [hb]
    · have htb : ¬ t = b := fun hh => hbt hh.symm
      by_cases htl : t ∈ l <;> simp [hbt, htb, htl, List.mem_cons]

theorem jsGet_bump [DecidableEq κ] (m : List (κ × ℕ)) (a t : κ) :
    jsGet (bump m a) t = if t = a then some ((jsGet m a).getD 0 + 1) else jsGet m t := by
  unfold bump
  rw [jsGet_jsSet]

theorem jsGet_foldl_bump [DecidableEq κ] :
    ∀ (l : List κ) (m : List (κ × ℕ)) (t : κ),
      jsGet (l.foldl bump m) t =
        if t ∈ l then some ((jsGet m t).getD 0 + occCount l t) else jsGet m t := by
  intro l
  induction l with
  | nil => intro m t; simp
  | cons a l ih =>
    intro m t
    rw [List.foldl_cons, ih, jsGet_bump, occCount_cons]
    by_cases hta : t = a
    · subst hta
      rw [if_pos rfl, if_pos rfl, if_pos (List.mem_cons_self t l)]
      by_cases htl : t ∈ l
      · rw [if_pos htl, Option.getD_some, Option.some.injEq]
        omega
      · rw [if_neg htl, occCount_eq_zero_of_not_mem htl, Option.some.injEq]
    · have hat : ¬ a = t := fun h => hta h.symm
      rw [if_neg hta, if_neg hat, Nat.zero_add]
      by_cases htl : t ∈ l
      · rw [if_pos htl, if_pos (List.mem_cons_of_mem a htl)]
      · rw [if_neg htl, if_neg (by simp [List.mem_cons, hta, htl])]

theorem jsGet_vocAdd_fold_mono [DecidableEq κ] :
    ∀ (l : List κ) (voc : List (κ × ℕ)) (t : κ) (n : ℕ), jsGet voc t = some n →
      jsGet (l.foldl
        (fun voc token => if jsHas voc token then voc else jsSet voc token voc.length) voc) t =
        some n := by
  intro l
  induction l with
  | nil => intro voc t n h; exact h
  | cons a l ih =>
    intro voc t n h
    rw [List.foldl_cons]
    apply ih
    by_cases hhas : jsHas voc a
    · rwa [if_pos hhas]
    · rw [if_neg hhas, jsGet_jsSet]
      have hta : ¬ t = a := by
        intro hta
        subst hta
        rw [jsHas_eq_isSome, h] at hhas
        simp at hhas
      rwa [if_neg hta]

theorem isSome_vocAdd_fold [DecidableEq κ] :
    ∀ (l : List κ) (voc : List (κ × ℕ)) (t : κ),
      (jsGet (l.foldl
        (fun voc token => if jsHas voc token then voc else jsSet voc token voc.length) voc)
          t).isSome ↔
        (jsGet voc t).isSome ∨ t ∈ l := by
  intro l
  induction l with
  | nil => intro voc t; simp
  | cons a l ih =>
    intro voc t
    rw [List.foldl_cons, ih]
    by_cases hhas : jsHas voc a
    · rw [if_pos hhas]
      constructor
      · rintro (h | h)
        · exact Or.inl h
        · exact Or.inr (List.mem_cons_of_mem a h)
      · rintro (h | h)
        · exact Or.inl h
        · rcases List.mem_cons.mp h with rfl | h2
          · rw [jsHas_eq_isSome] at hhas
            exact Or.inl hhas
          · exact Or.inr h2
    · rw [if_neg hhas, jsGet_jsSet]
      by_cases hta : t = a
      · simp [hta]
      · rw [if_neg hta]
        constructor
        · rintro (h | h)
          · exact Or.inl h
          · exact Or.inr (List.mem_cons_of_mem a h)
        · rintro (h | h)
          · exact Or.inl h
          · rcases List.mem_cons.mp h with rfl | h2
            · exact absurd rfl hta
            · exact Or.inr h2

theorem mem_foldl_dedup [DecidableEq κ] :
    ∀ (l : List κ) (acc : List κ) (x : κ),
      x ∈ l.foldl (fun acc t => if t ∈ acc then acc else acc ++ [t]) acc ↔
        x ∈ acc ∨ x ∈ l := by
  intro l
  induction l with
  | nil => intro acc x; simp
  | cons t l ih =>
    intro acc x
    rw [List.foldl_cons, ih]
    by_cases ht : t ∈ acc
    · rw [if_pos ht]
      constructor
      · rintro (h | h)
        · exact Or.inl h
        · exact Or.inr (List.mem_cons_of_mem t h)
      · rintro (h | h)
        · exact Or.inl h
        · rcases List.mem_cons.mp h with rfl | h2
          · exact Or.inl ht
          · exact Or.inr h2
    · rw [if_neg ht]
      rw [List.mem_append, List.mem_singleton, List.mem_cons]
      tauto

theorem mem_jsDedup [DecidableEq κ] (l : List κ) (x : κ) : x ∈ jsDedup l ↔ x ∈ l := by
  unfold jsDedup
  rw [mem_foldl_dedup]
  simp

theorem nodup_append_singleton (l : List κ) (a : κ) (h : l.Nodup) (h2 : a ∉ l) :
    (l ++ [a]).Nodup := by
  rw [List.nodup_append]
  refine ⟨h, List.nodup_singleton a, ?_⟩
  intro x hx hxa
  simp only [List.mem_singleton] at hxa
  subst hxa
  exact h2 hx

theorem nodup_foldl_dedup [DecidableEq κ] :
    ∀ (l : List κ) (acc : List κ), acc.Nodup →
      (l.foldl (fun acc t => if t ∈ acc then acc else acc ++ [t]) acc).Nodup := by
  intro l
  induction l with
  | nil => intro acc h; exact h
  | cons t l ih =>
    intro acc h
    rw [List.foldl_cons]
    apply ih
    by_cases ht : t ∈ acc
    · rwa [if_pos ht]
    · rw [if_neg ht]
      exact nodup_append_singleton acc t h ht

theorem nodup_jsDedup [DecidableEq κ] (l : List κ) : (jsDedup l).Nodup :=
  nodup_foldl_dedup l [] List.nodup_nil

theorem occCount_flatten_dedup (docs : List (List Char)) (t : List Char) :
    occCount ((docs.map (fun d => jsDedup (tokenize d))).flatten) t = dfCount docs t := by
  induction docs with
  | nil => simp [occCount, dfCount]
  | cons d docs ih =>
    rw [List.map_cons, List.flatten_cons, occCount_append, ih,
      occCount_of_nodup _ (nodup_jsDedup _) t]
    unfold dfCount
    rw [List.filter_cons]
    by_cases hd : t ∈ tokenize d
    · rw [if_pos (by simpa [mem_jsDedup] using hd),
        if_pos (show decide (t ∈ tokenize d) = true by simp [hd]), List.length_cons]
      omega
    · rw [if_neg (by simpa [mem_jsDedup] using hd)]
      simp [hd, dfCount]

theorem mem_flatten_dedup (docs : List (List Char)) (t : List Char) :
    t ∈ (docs.map (fun d => jsDedup (tokenize d))).flatten ↔
      corpusHasToken docs t = true := by
  rw [List.mem_flatten]
  unfold corpusHasToken
  rw [List.any_eq_true]
  constructor
  · rintro ⟨l, hl, hm⟩
    rcases List.mem_map.mp hl with ⟨d, hd, rfl⟩
    exact ⟨d, hd, by simpa [mem_jsDedup] using hm⟩
  · rintro ⟨d, hd, hm⟩
    exact ⟨jsDedup (tokenize d), List.mem_map_of_mem _ hd,
      (mem_jsDedup _ _).mpr (by simpa using hm)⟩

theorem nodup_keys_jsSet [DecidableEq κ] (m : List (κ × α)) (k : κ) (v : α)
    (h : (jsKeys m).Nodup) : (jsKeys (jsSet m k v)).Nodup := by
  rw [jsKeys_jsSet]
  by_cases hk : (jsGet m k).isSome
  · rwa [if_pos hk]
  · rw [if_neg hk]
    exact nodup_append_singleton _ k h (fun hc => hk ((mem_jsKeys m k).mp hc))

theorem nodup_keys_foldl_bump [DecidableEq κ] :
    ∀ (l : List κ) (m : List (κ × ℕ)), (jsKeys m).Nodup → (jsKeys (l.foldl bump m)).Nodup := by
  intro l
  induction l with
  | nil => intro m h; exact h
  | cons a l ih =>
    intro m h
    rw [List.foldl_cons]
    exact ih _ (nodup_keys_jsSet m a _ h)

theorem jsGet_foldl_setf_not_mem [DecidableEq κ] (g : κ × ℕ → α) :
    ∀ (entries : List (κ × ℕ)) (base : List (κ × α)) (t : κ), t ∉ jsKeys entries →
      jsGet (entries.foldl (fun m q => jsSet m q.1 (g q)) base) t = jsGet base t := by
  intro entries
  induction entries with
  | nil => intro base t _; rfl
  | cons q entries ih =>
    intro base t ht
    have ht1 : ¬ t = q.1 := fun h => ht (by simp [jsKeys, h])
    have ht2 : t ∉ jsKeys entries := fun h => ht (by simp [jsKeys] at h ⊢; exact Or.inr h)
    rw [List.foldl_cons, ih _ t ht2, jsGet_jsSet, if_neg ht1]

theorem jsGet_foldl_setf_mem [DecidableEq κ] (g : κ × ℕ → α) :
    ∀ (entries : List (κ × ℕ)) (base : List (κ × α)) (t : κ) (c : ℕ),
      (jsKeys entries).Nodup → (t, c) ∈ entries →
      jsGet (entries.foldl (fun m q => jsSet m q.1 (g q)) base) t = some (g (t, c)) := by
  intro entries
  induction entries with
  | nil => intro base t c _ h; simp at h
  | cons q entries ih =>
    intro base t c hnd hmem
    have hnd2 : (q.1 :: jsKeys entries).Nodup := hnd
    have hq : q.1 ∉ jsKeys entries := (List.nodup_cons.mp hnd2).1
    have hrest : (jsKeys entries).Nodup := (List.nodup_cons.mp hnd2).2
    rcases List.mem_cons.mp hmem with rfl | hmem2
    · rw [List.foldl_cons, jsGet_foldl_setf_not_mem g entries _ t hq, jsGet_jsSet, if_pos rfl]
    · rw [List.foldl_cons]
      exact ih _ t c hrest hmem2

/-! ## Claim C4: vocabulary build merges, it does not replace -/

/-- C4 amended: `buildVocabulary` sets `documentCount` to the new corpus
size and overwrites the IDF of every term occurring in the new corpus with
`ln((N+1)/(df+1)) + 1`, but it does NOT replace the previous state: every
existing vocabulary slot survives unchanged, the vocabulary afterwards
holds the union of the old terms and the new corpus terms, and IDF entries
of terms absent from the new corpus survive from the earlier build.  (The
original "replaced entirely" is refuted by
`c4_replacement_counterexample`.) -/
theorem c4_vocabulary_merge (st : LocalEmb) (docs : List (List Char)) :
    (buildVocabulary st docs).documentCount = docs.length ∧
    (∀ t n, jsGet st.vocabulary t = some n →
      jsGet (buildVocabulary st docs).vocabulary t = some n) ∧
    (∀ t, (jsGet (buildVocabulary st docs).vocabulary t).isSome ↔
      (jsGet st.vocabulary t).isSome ∨ corpusHasToken docs t = true) ∧
    (∀ t, corpusHasToken docs t = false →
      jsGet (buildVocabulary st docs).idf t = jsGet st.idf t) ∧
    (∀ t, corpusHasToken docs t = true →
      jsGet (buildVocabulary st docs).idf t =
        some (Real.log (((docs.length : ℝ) + 1) / ((dfCount docs t : ℝ) + 1)) + 1)) := by
  have hvoc : (buildVocabulary st docs).vocabulary =
      ((docs.map (fun d => jsDedup (tokenize d))).flatten).foldl
        (fun voc token => if jsHas voc token then voc else jsSet voc token voc.length)
        st.vocabulary := by
    show (docs.foldl docFreqVocabStep ([], st.vocabulary)).2 = _
    rw [buildVocab_fold_eq]
  have hidf : (buildVocabulary st docs).idf =
      (((docs.map (fun d => jsDedup (tokenize d))).flatten).foldl bump []).foldl
        (fun idf q =>
          jsSet idf q.1 (Real.log (((docs.length : ℝ) + 1) / ((q.2 : ℝ) + 1)) + 1))
        st.idf := by
    show ((docs.foldl docFreqVocabStep ([], st.vocabulary)).1).foldl _ st.idf = _
    rw [buildVocab_fold_eq]
  refine ⟨rfl, ?_, ?_, ?_, ?_⟩
  · intro t n h
    rw [hvoc]
    exact jsGet_vocAdd_fold_mono _ _ t n h
  · intro t
    rw [hvoc, isSome_vocAdd_fold, mem_flatten_dedup]
  · intro t hfalse
    rw [hidf]
    apply jsGet_foldl_setf_not_mem
    intro hmem
    rw [mem_jsKeys, jsGet_foldl_bump] at hmem
    by_cases htf : t ∈ (docs.map (fun d => jsDedup (tokenize d))).flatten
    · rw [mem_flatten_dedup] at htf
      rw [htf] at hfalse
      cases hfalse
    · rw [if_neg htf] at hmem
      simp [jsGet] at hmem
  · intro t htrue
    rw [hidf]
    have htf : t ∈ (docs.map (fun d => jsDedup (tokenize d))).flatten :=
      (mem_flatten_dedup docs t).mpr htrue
    have hget : jsGet (((docs.map (fun d => jsDedup (tokenize d))).flatten).foldl bump []) t =
        some (dfCount docs t) := by
      rw [jsGet_foldl_bump, if_pos htf, occCount_flatten_dedup]
      simp [jsGet]
    have hnd : (jsKeys (((docs.map (fun d => jsDedup (tokenize d))).flatten).foldl
        bump [])).Nodup :=
      nodup_keys_foldl_bump _ [] (by simp [jsKeys])
    exact jsGet_foldl_setf_mem _ _ _ t (dfCount docs t) hnd (jsGet_eq_some_mem hget)

/-- Witness for `c4_vocabulary_merge`: building over the single document
"aa" stores IDF `ln(2/2) + 1` for its token. -/
theorem c4_vocabulary_merge_witness :
    corpusHasToken [String.toList "aa"] (String.toList "aa") = true ∧
      jsGet (buildVocabulary embFresh [String.toList "aa"]).idf (String.toList "aa") =
        some (Real.log ((([String.toList "aa"].length : ℝ) + 1) /
          ((dfCount [String.toList "aa"] (String.toList "aa") : ℝ) + 1)) + 1) :=
  ⟨by decide,
    (c4_vocabulary_merge embFresh [String.toList "aa"]).2.2.2.2 _ (by decide)⟩

/-- C4 counterexample: after `buildVocabulary(["aa"])` followed by
`buildVocabulary(["bb"])`, the vocabulary still contains the term "aa",
which does not occur in the new document sequence — the prior vocabulary
was not replaced. -/
theorem c4_replacement_counterexample :
    (jsGet (buildVocabulary (buildVocabulary embFresh [String.toList "aa"])
        [String.toList "bb"]).vocabulary (String.toList "aa")).isSome = true ∧
    String.toList "aa" ∉ tokenize (String.toList "bb") :=
  ⟨by decide, by decide⟩

/-! ## Lemmas about `findSimilar` and the retrieval loop -/

theorem mapScores_ok_of_dims (qv : List ℝ) :
    ∀ docs : List VEntry, (∀ d ∈ docs, d.vector.length = qv.length) →
      ∃ scores, mapScores qv docs = .ok scores ∧ scores.length = docs.length ∧
        ∀ p ∈ scores, ∃ d ∈ docs, p.1 = d.id := by
  intro docs
  induction docs with
  | nil => intro _; exact ⟨[], rfl, rfl, by simp⟩
  | cons d ds ih =>
    intro h
    obtain ⟨rest, hr, hlen, hids⟩ := ih fun e he => h e (List.mem_cons_of_mem d he)
    have hd : ¬ qv.length ≠ d.vector.length := by
      rw [h d (List.mem_cons_self d ds)]
      simp
    refine ⟨(d.id, dotList qv d.vector) :: rest, ?_, by simp [hlen], ?_⟩
    · unfold mapScores cosineSimilarity
      rw [if_neg hd, hr]
    · intro p hp
      rcases List.mem_cons.mp hp with rfl | hp2
      · exact ⟨d, List.mem_cons_self d ds, rfl⟩
      · obtain ⟨e, he, hpe⟩ := hids p hp2
        exact ⟨e, List.mem_cons_of_mem d he, hpe⟩

theorem mapScores_ids (qv : List ℝ) :
    ∀ (docs : List VEntry) (scores : List (String × ℝ)),
      mapScores qv docs = .ok scores → ∀ p ∈ scores, ∃ d ∈ docs, p.1 = d.id := by
  intro docs
  induction docs with
  | nil =>
    intro scores h p hp
    cases h
    simp at hp
  | cons d ds ih =>
    intro scores h p hp
    unfold mapScores at h
    cases hc : cosineSimilarity qv d.vector with
    | error e => rw [hc] at h; cases h
    | ok s =>
      rw [hc] at h
      cases hms : mapScores qv ds with
      | error e => rw [hms] at h; cases h
      | ok rest =>
        rw [hms] at h
        cases h
        rcases List.mem_cons.mp hp with rfl | hp2
        · exact ⟨d, List.mem_cons_self d ds, rfl⟩
        · obtain ⟨e, he, hpe⟩ := ih rest hms p hp2
          exact ⟨e, List.mem_cons_of_mem d he, hpe⟩

theorem findSimilar_ok (qv : List ℝ) (docs : List VEntry) (topK : ℕ)
    (hdim : ∀ d ∈ docs, d.vector.length = qv.length) :
    ∃ sims, findSimilar qv docs topK = .ok sims ∧
      sims.length = min topK docs.length ∧
      ∀ p ∈ sims, ∃ d ∈ docs, p.1 = d.id := by
  obtain ⟨scores, hs, hlen, hids⟩ := mapScores_ok_of_dims qv docs hdim
  refine ⟨(sortByScoreDesc scores).take topK, ?_, ?_, ?_⟩
  · unfold findSimilar
    rw [hs]
  · have hsl : (sortByScoreDesc scores).length = scores.length :=
      (List.perm_insertionSort _ scores).length_eq
    rw [List.length_take, hsl, hlen]
  · intro p hp
    exact hids p ((List.perm_insertionSort _ scores).mem_iff.mp
      (List.take_subset _ _ hp))

theorem retrieve_loop_eq (st : Engine) (topK : ℕ) :
    ∀ (sims : List (String × ℝ)) (acc : List RResult), acc.length ≤ topK →
      sims.foldl
        (fun acc p =>
          if st.similarityThreshold ≤ p.2 ∧ acc.length < topK then acc ++ [mkRResult st p]
          else acc)
        acc =
      acc ++ ((sims.filter (fun p => decide (st.similarityThreshold ≤ p.2))).take
        (topK - acc.length)).map (mkRResult st) := by
  intro sims
  induction sims with
  | nil => intro acc _; simp
  | cons p sims ih =>
    intro acc hacc
    rw [List.foldl_cons, List.filter_cons]
    by_cases hpass : st.similarityThreshold ≤ p.2
    · rw [if_pos (decide_eq_true hpass)]
      by_cases hlen : acc.length < topK
      · rw [if_pos ⟨hpass, hlen⟩,
          ih (acc ++ [mkRResult st p]) (by rw [List.length_append]; simp; omega)]
        obtain ⟨k, hk⟩ : ∃ k, topK - acc.length = k + 1 :=
          ⟨topK - acc.length - 1, by omega⟩
        rw [hk, List.take_succ_cons, List.map_cons, List.length_append]
        simp only [List.length_singleton]
        rw [List.append_assoc, List.singleton_append]
        have h2 : topK - (acc.length + 1) = k := by omega
        rw [h2]
      · rw [if_neg (fun hc => hlen hc.2), ih acc hacc]
        have h0 : topK - acc.length = 0 := by omega
        rw [h0]
        simp
    · rw [if_neg (fun hc => hpass hc.1),
        if_neg (by simp [hpass] : ¬ ((fun p : String × ℝ =>
          decide (st.similarityThreshold ≤ p.2)) p = true)), ih acc hacc]

/-! ## Claim C2: threshold filtering and fallback -/

theorem embed_helper_dims (st : Engine)
    (hdim : ∀ p ∈ st.documentVectors, p.2.vector.length = st.emb.dimension)
    (query : List Char) :
    ∀ d ∈ jsValues st.documentVectors, d.vector.length = (embed st.emb query).length := by
  intro d hd
  rw [embed_length]
  rcases List.mem_map.mp hd with ⟨p, hp, rfl⟩
  exact hdim p hp

/-- C2 amended: in Ready state with a non-empty, dimension-consistent
vector cache and `topK ≥ 1`, `retrieveByVector` asks the ranker for
`2*topK` candidates, keeps in rank order those with score at least
`similarityThreshold` up to `topK`, falls back to the bare top `topK`
candidates when none passed, and therefore never returns an empty list.
(For `topK = 0` the code does return an empty list on a non-empty cache:
see `c2_topk_zero_counterexample`.) -/
theorem c2_threshold_fallback (st : Engine) (query : List Char) (topK : ℕ)
    (hdim : ∀ p ∈ st.documentVectors, p.2.vector.length = st.emb.dimension)
    (hk : 1 ≤ topK) (hne : st.documentVectors ≠ []) :
    ∃ sims,
      findSimilar (embed st.emb query) (jsValues st.documentVectors) (topK * 2) = .ok sims ∧
      sims ≠ [] ∧
      retrieveByVector st query topK = .ok (specRetrieveShape st topK sims) ∧
      specRetrieveShape st topK sims ≠ [] := by
  obtain ⟨sims, hok, hlen, _⟩ :=
    findSimilar_ok (embed st.emb query) (jsValues st.documentVectors) (topK * 2)
      (embed_helper_dims st hdim query)
  have hvne : jsValues st.documentVectors ≠ [] := by
    intro hc
    exact hne (by simpa [jsValues] using hc)
  have hsne : sims ≠ [] := by
    intro hc
    rw [hc] at hlen
    simp only [List.length_nil] at hlen
    have h1 : 0 < topK * 2 := by omega
    have h2 : 0 < (jsValues st.documentVectors).length :=
      List.length_pos.mpr hvne
    omega
  have hloop := retrieve_loop_eq st topK sims [] (by simp)
  simp only [List.length_nil, Nat.sub_zero, List.nil_append] at hloop
  have hsimslen : 0 < sims.length := List.length_pos.mpr hsne
  have hpayload :
      (if (List.map (mkRResult st)
            ((sims.filter (fun p => decide (st.similarityThreshold ≤ p.2))).take
              topK)).length = 0 ∧ 0 < sims.length
        then (sims.take topK).map (mkRResult st)
        else List.map (mkRResult st)
          ((sims.filter (fun p => decide (st.similarityThreshold ≤ p.2))).take topK)) =
      specRetrieveShape st topK sims := by
    simp only [specRetrieveShape]
    by_cases hK : ((sims.filter (fun p => decide (st.similarityThreshold ≤ p.2))).take
        topK).length = 0
    · rw [if_pos ⟨by rw [List.length_map]; exact hK, hsimslen⟩, if_pos hK]
    · rw [if_neg (fun hc => hK (by rw [List.length_map] at hc; exact hc.1)), if_neg hK]
  have hshape : retrieveByVector st query topK = .ok (specRetrieveShape st topK sims) := by
    unfold retrieveByVector
    rw [hok]
    simp only [hloop]
    rw [hpayload]
  refine ⟨sims, hok, hsne, hshape, ?_⟩
  simp only [specRetrieveShape]
  by_cases hK : ((sims.filter (fun p => decide (st.similarityThreshold ≤ p.2))).take
      topK).length = 0
  · rw [if_pos hK]
    intro hc
    have htake : sims.take topK = [] := List.map_eq_nil_iff.mp hc
    have hlt := List.length_take topK sims
    rw [htake] at hlt
    simp only [List.length_nil] at hlt
    omega
  · rw [if_neg hK]
    intro hc
    rw [List.map_eq_nil_iff.mp hc] at hK
    simp at hK

theorem embed_embFresh_ab : embed embFresh abText = [1] := by
  unfold embed
  rw [accum_embFresh_ab]
  have h1 : l2norm [(1 : ℝ)] = 1 := by
    unfold l2norm sumSq
    simp only [List.foldl_cons, List.foldl_nil]
    norm_num [Real.sqrt_one]
  unfold normalize
  rw [if_neg (by rw [h1]; norm_num), h1]
  norm_num

/-- Witness for `c2_threshold_fallback` on a one-entry cache. -/
theorem c2_threshold_fallback_witness :
    engOne.documentVectors ≠ [] ∧ (1 : ℕ) ≤ 1 ∧
      retrieveByVector engOne abText 1 ≠ .ok [] := by
  have hne : engOne.documentVectors ≠ [] := by
    simp [engOne, engFresh]
  have hdim : ∀ p ∈ engOne.documentVectors, p.2.vector.length = engOne.emb.dimension := by
    decide
  obtain ⟨sims, hok, hsne, hret, hshape⟩ :=
    c2_threshold_fallback engOne abText 1 hdim (le_refl 1) hne
  refine ⟨hne, le_refl 1, ?_⟩
  rw [hret]
  intro h
  exact hshape (Except.ok.inj h)

/-- C2 counterexample: with `topK = 0` (which the claim's quantification
admits), `retrieveByVector` returns the empty list even though the cache
is non-empty: the ranker is asked for `2*0 = 0` candidates, so there are
no candidates and the fallback clause does not fire. -/
theorem c2_topk_zero_counterexample :
    engOne.documentVectors ≠ [] ∧ retrieveByVector engOne abText 0 = .ok [] := by
  constructor
  · simp [engOne, engFresh]
  · have hq : embed engOne.emb abText = [1] := embed_embFresh_ab
    unfold retrieveByVector
    rw [hq]
    have hv : jsValues engOne.documentVectors = [entryOne] := rfl
    rw [hv]
    have hfs : findSimilar [(1 : ℝ)] [entryOne] 0 = .ok [] := by
      unfold findSimilar mapScores cosineSimilarity
      norm_num [entryOne, dotList, sortByScoreDesc, List.insertionSort, List.orderedInsert]
      rfl
    rw [hfs]
    simp

/-! ## Lemmas about `buildVectorIndex` keys and well-formedness -/

theorem jsKeys_buildIndex_fold (emb : LocalEmb) :
    ∀ (docs : List Doc) (m : List (String × VEntry)),
      jsKeys (docs.foldl (fun m d => jsSet m d.id (mkEntry emb d)) m) =
        (docs.map (fun d => d.id)).foldl
          (fun ks k => if k ∈ ks then ks else ks ++ [k]) (jsKeys m) := by
  intro docs
  induction docs with
  | nil => intro m; rfl
  | cons d docs ih =>
    intro m
    rw [List.foldl_cons, ih, List.map_cons, List.foldl_cons, jsKeys_jsSet]
    by_cases hmem : d.id ∈ jsKeys m
    · rw [if_pos ((mem_jsKeys m d.id).mp hmem), if_pos hmem]
    · rw [if_neg (fun hs => hmem ((mem_jsKeys m d.id).mpr hs)), if_neg hmem]

theorem jsGet_buildIndexFold_not_mem (emb : LocalEmb) :
    ∀ (docs : List Doc) (m : List (String × VEntry)) (k : String),
      k ∉ docs.map (fun d => d.id) →
      jsGet (docs.foldl (fun m d => jsSet m d.id (mkEntry emb d)) m) k = jsGet m k := by
  intro docs
  induction docs with
  | nil => intro m k _; rfl
  | cons d docs ih =>
    intro m k hk
    have hk1 : ¬ k = d.id := fun h => hk (by rw [List.map_cons]; exact h ▸ List.mem_cons_self _ _)
    have hk2 : k ∉ docs.map (fun d => d.id) := fun h => hk (by
      rw [List.map_cons]; exact List.mem_cons_of_mem _ h)
    rw [List.foldl_cons, ih _ k hk2, jsGet_jsSet, if_neg hk1]

theorem jsGet_buildIndexFold_mem (emb : LocalEmb) :
    ∀ (docs : List Doc) (m : List (String × VEntry)),
      (docs.map (fun d => d.id)).Nodup →
      ∀ d ∈ docs,
        jsGet (docs.foldl (fun m d => jsSet m d.id (mkEntry emb d)) m) d.id =
          some (mkEntry emb d) := by
  intro docs
  induction docs with
  | nil => intro m _ d hd; simp at hd
  | cons d0 docs ih =>
    intro m hnd d hd
    have hnd2 : (d0.id :: docs.map (fun d => d.id)).Nodup := by
      rw [← List.map_cons]; exact hnd
    have h0 : d0.id ∉ docs.map (fun d => d.id) := (List.nodup_cons.mp hnd2).1
    rcases List.mem_cons.mp hd with rfl | hd2
    · rw [List.foldl_cons, jsGet_buildIndexFold_not_mem emb docs _ d.id h0,
        jsGet_jsSet, if_pos rfl]
    · rw [List.foldl_cons]
      exact ih _ (List.nodup_cons.mp hnd2).2 d hd2

theorem length_foldl_insert [DecidableEq κ] (ids ks : List κ) (hks : ks.Nodup)
    (hsub : ∀ k ∈ ks, k ∈ ids) (hids : ids.Nodup) :
    (ids.foldl (fun acc t => if t ∈ acc then acc else acc ++ [t]) ks).length =
      ids.length := by
  have hnd := nodup_foldl_dedup ids ks hks
  have hmem : ∀ x, x ∈ ids.foldl (fun acc t => if t ∈ acc then acc else acc ++ [t]) ks ↔
      x ∈ ids := by
    intro x
    rw [mem_foldl_dedup]
    constructor
    · rintro (h | h)
      · exact hsub x h
      · exact h
    · exact Or.inr
  have h1 : (ids.foldl (fun acc t => if t ∈ acc then acc else acc ++ [t]) ks).toFinset =
      ids.toFinset := by
    apply Finset.ext
    intro x
    simp only [List.mem_toFinset]
    exact hmem x
  calc (ids.foldl (fun acc t => if t ∈ acc then acc else acc ++ [t]) ks).length
      = (ids.foldl (fun acc t => if t ∈ acc then acc else acc ++ [t]) ks).toFinset.card :=
        (List.toFinset_card_of_nodup hnd).symm
    _ = ids.toFinset.card := by rw [h1]
    _ = ids.length := List.toFinset_card_of_nodup hids

theorem jsSet_entry_wf (m : List (String × VEntry)) (k : String) (v : VEntry)
    (hwf : ∀ p ∈ m, p.2.id = p.1) (hv : v.id = k) :
    ∀ p ∈ jsSet m k v, p.2.id = p.1 := by
  intro p hp
  unfold jsSet at hp
  by_cases hhas : jsHas m k
  · rw [if_pos hhas] at hp
    rcases List.mem_map.mp hp with ⟨q, hq, rfl⟩
    by_cases hqk : q.1 = k <;> simp [hqk, hv, hwf q hq]
  · rw [if_neg hhas] at hp
    rcases List.mem_append.mp hp with hp2 | hp2
    · exact hwf p hp2
    · rw [List.mem_singleton.mp hp2]
      exact hv

theorem buildIndexFold_wf (emb : LocalEmb) :
    ∀ (docs : List Doc) (m : List (String × VEntry)), (∀ p ∈ m, p.2.id = p.1) →
      ∀ p ∈ docs.foldl (fun m d => jsSet m d.id (mkEntry emb d)) m, p.2.id = p.1 := by
  intro docs
  induction docs with
  | nil => intro m h; exact h
  | cons d docs ih =>
    intro m h
    rw [List.foldl_cons]
    exact ih _ (jsSet_entry_wf m d.id (mkEntry emb d) h rfl)

theorem mem_jsValues (m : List (κ × α)) (v : α) : v ∈ jsValues m ↔ ∃ k, (k, v) ∈ m := by
  unfold jsValues
  rw [List.mem_map]
  constructor
  · rintro ⟨p, hp, rfl⟩
    exact ⟨p.1, hp⟩
  · rintro ⟨k, hk⟩
    exact ⟨(k, v), hk, rfl⟩

theorem retrieveByVector_ids (st : Engine) (hwf : ∀ p ∈ st.documentVectors, p.2.id = p.1)
    (q : List Char) (k : ℕ) (l : List RResult)
    (h : retrieveByVector st q k = .ok l) :
    ∀ r ∈ l, r.id ∈ jsKeys st.documentVectors := by
  unfold retrieveByVector at h
  cases hfs : findSimilar (embed st.emb q) (jsValues st.documentVectors) (k * 2) with
  | error e => rw [hfs] at h; cases h
  | ok sims =>
    rw [hfs] at h
    have hids : ∀ p ∈ sims, ∃ d ∈ jsValues st.documentVectors, p.1 = d.id := by
      unfold findSimilar at hfs
      cases hms : mapScores (embed st.emb q) (jsValues st.documentVectors) with
      | error e => rw [hms] at hfs; cases hfs
      | ok scores =>
        rw [hms] at hfs
        have hts := Except.ok.inj hfs
        intro p hp
        rw [← hts] at hp
        exact mapScores_ids _ _ _ hms p ((List.perm_insertionSort _ scores).mem_iff.mp
          (List.take_subset _ _ hp))
    have hmk : ∀ p ∈ sims, (mkRResult st p).id ∈ jsKeys st.documentVectors := by
      intro p hp
      obtain ⟨d, hd, hpd⟩ := hids p hp
      obtain ⟨kk, hkk⟩ := (mem_jsValues _ _).mp hd
      have hdid : d.id = kk := hwf (kk, d) hkk
      have hkmem : p.1 ∈ jsKeys st.documentVectors := by
        rw [hpd, hdid]
        exact List.mem_map_of_mem _ hkk
      unfold mkRResult
      cases hg : jsGet st.documentVectors p.1 with
      | some doc =>
        have hdoc : doc.id = p.1 := hwf (p.1, doc) (jsGet_eq_some_mem hg)
        simp only [hg]
        rw [hdoc]
        exact hkmem
      | none =>
        rw [mem_jsKeys, hg] at hkmem
        simp at hkmem
    have hloop := retrieve_loop_eq st k sims [] (by simp)
    simp only [List.length_nil, Nat.sub_zero, List.nil_append] at hloop
    simp only [hloop] at h
    have hl := Except.ok.inj h
    intro r hr
    rw [← hl] at hr
    by_cases hc : (List.map (mkRResult st)
        ((sims.filter (fun p => decide (st.similarityThreshold ≤ p.2))).take k)).length = 0 ∧
        0 < sims.length
    · rw [if_pos hc] at hr
      rcases List.mem_map.mp hr with ⟨p, hp, rfl⟩
      exact hmk p (List.take_subset _ _ hp)
    · rw [if_neg hc] at hr
      rcases List.mem_map.mp hr with ⟨p, hp, rfl⟩
      exact hmk p (List.mem_of_mem_filter (List.take_subset _ _ hp))

/-! ## Claim C1: refresh consistency -/

theorem refreshEngine_documentVectors (st : Engine) (docs : List Doc) :
    (refreshEngine st docs).documentVectors =
      docs.foldl
        (fun m d => jsSet m d.id
          (mkEntry (buildVocabulary st.emb (docs.map (fun d => d.content))) d))
        st.documentVectors := rfl

theorem initEngine_documentVectors (st : Engine) (docs : List Doc) :
    (initEngine st docs).documentVectors =
      docs.foldl
        (fun m d => jsSet m d.id
          (mkEntry (embInit st.emb (docs.map (fun d => d.content))) d))
        st.documentVectors := rfl

/-- C1 amended: `refresh` re-embeds every current source document into the
cache with the rebuilt vocabulary, but the cache is NOT discarded first:
its keys afterwards are the union of the pre-refresh keys and the current
source ids, every pre-refresh entry key survives, and
`getStats().documentCount` equals the source's post-reload count only when
every pre-refresh key is among the current ids (with distinct ids).  A
subsequent `retrieve` returns only ids present in the post-refresh cache —
which may include stale ids that are no longer in the source.  (The
original claim is refuted by `c1_refresh_counterexample`.) -/
theorem c1_refresh_consistency (st : Engine) (docs : List Doc) :
    (∀ d ∈ docs, d.id ∈ jsKeys (refreshEngine st docs).documentVectors) ∧
    (∀ k ∈ jsKeys st.documentVectors, k ∈ jsKeys (refreshEngine st docs).documentVectors) ∧
    (∀ k ∈ jsKeys (refreshEngine st docs).documentVectors,
      k ∈ jsKeys st.documentVectors ∨ k ∈ docs.map (fun d => d.id)) ∧
    ((jsKeys st.documentVectors).Nodup → (docs.map (fun d => d.id)).Nodup →
      (∀ k ∈ jsKeys st.documentVectors, k ∈ docs.map (fun d => d.id)) →
      statsDocumentCount (refreshEngine st docs) docs.length = docs.length) ∧
    ((docs.map (fun d => d.id)).Nodup → ∀ d ∈ docs,
      jsGet (refreshEngine st docs).documentVectors d.id =
        some (mkEntry (buildVocabulary st.emb (docs.map (fun d => d.content))) d)) ∧
    ((∀ p ∈ st.documentVectors, p.2.id = p.1) →
      ∀ (q : List Char) (k : ℕ) (l : List RResult),
        retrieveByVector (refreshEngine st docs) q k = .ok l →
        ∀ r ∈ l, r.id ∈ jsKeys (refreshEngine st docs).documentVectors) := by
  have hkeys : jsKeys (refreshEngine st docs).documentVectors =
      (docs.map (fun d => d.id)).foldl
        (fun ks k => if k ∈ ks then ks else ks ++ [k]) (jsKeys st.documentVectors) := by
    rw [refreshEngine_documentVectors]
    exact jsKeys_buildIndex_fold _ docs st.documentVectors
  refine ⟨?_, ?_, ?_, ?_, ?_, ?_⟩
  · intro d hd
    rw [hkeys, mem_foldl_dedup]
    exact Or.inr (List.mem_map_of_mem _ hd)
  · intro k hk
    rw [hkeys, mem_foldl_dedup]
    exact Or.inl hk
  · intro k hk
    rw [hkeys, mem_foldl_dedup] at hk
    exact hk
  · intro h1 h2 h3
    have hlen2 : (refreshEngine st docs).documentVectors.length = docs.length := by
      rw [← jsKeys_length, hkeys, length_foldl_insert _ _ h1 h3 h2, List.length_map]
    unfold statsDocumentCount
    rw [hlen2]
    simp
  · intro hnd d hd
    rw [refreshEngine_documentVectors]
    exact jsGet_buildIndexFold_mem _ docs st.documentVectors hnd d hd
  · intro hwf q k l h
    apply retrieveByVector_ids (refreshEngine st docs) ?wf q k l h
    case wf =>
      rw [refreshEngine_documentVectors]
      exact buildIndexFold_wf _ docs st.documentVectors hwf

/-- Witness for `c1_refresh_consistency`: refreshing a fresh engine with
one document makes the reported document count match the source. -/
theorem c1_refresh_consistency_witness :
    (jsKeys engFresh.documentVectors).Nodup ∧
      statsDocumentCount (refreshEngine engFresh [docB]) [docB].length = [docB].length :=
  ⟨by decide,
    (c1_refresh_consistency engFresh [docB]).2.2.2.1 (by decide) (by decide) (by decide)⟩

/-- C1 counterexample: initialize over source `[docA]`, then the source is
replaced by `[docB]` and `refresh()` runs.  The stale entry for "a"
survives, so `getStats().documentCount = 2` while the source's
`getDocumentCount()` is 1. -/
theorem c1_refresh_counterexample :
    statsDocumentCount (refreshEngine (initEngine engFresh [docA]) [docB]) [docB].length = 2 ∧
      [docB].length = 1 := by
  constructor
  · have h1 : jsKeys (initEngine engFresh [docA]).documentVectors =
        ([docA].map (fun d => d.id)).foldl
          (fun ks k => if k ∈ ks then ks else ks ++ [k])
          (jsKeys engFresh.documentVectors) := by
      rw [initEngine_documentVectors]
      exact jsKeys_buildIndex_fold _ [docA] engFresh.documentVectors
    have h2 : jsKeys (refreshEngine (initEngine engFresh [docA]) [docB]).documentVectors =
        ([docB].map (fun d => d.id)).foldl
          (fun ks k => if k ∈ ks then ks else ks ++ [k])
          (jsKeys (initEngine engFresh [docA]).documentVectors) := by
      rw [refreshEngine_documentVectors]
      exact jsKeys_buildIndex_fold _ [docB] _
    rw [h1] at h2
    have h3 : jsKeys (refreshEngine (initEngine engFresh [docA]) [docB]).documentVectors =
        ["a", "b"] := by
      rw [h2]
      decide
    have h4 : (refreshEngine (initEngine engFresh [docA]) [docB]).documentVectors.length
        = 2 := by
      rw [← jsKeys_length, h3]
      rfl
    unfold statsDocumentCount
    rw [h4]
    norm_num
  · rfl

end RagJs
